import Mathlib

set_option linter.unusedSectionVars false

/-!
Verification of the two linked-list containers of the repository:
`DynamicLinkedList` (heap-node singly linked list, `src/dynamic_linked_list.rs`)
and `StaticLinkedList` (fixed-capacity arena with a free-slot pool,
`src/static_linked_list.rs`), both implementing `LinkedListTrait`
(`src/lib.rs`).

The dynamic list's `Option<Box<Node<T>>>` ownership chain is isomorphic to a
Lean `List T`; each trait method is translated as a function on `List T`
following the source's control flow (head special cases, link walks, early
returns).  Methods that mutate `&mut self` return the new list; methods
returning `Result<(), String>` return the new list paired with
`Except String Unit`.  Every `unwrap()` in the dynamic source is guarded by an
immediately preceding `is_none`/`is_some` test in the same branch, which the
pattern matches below capture directly.

The static list is embedded as a record of the `nodes` array (a list of
optional nodes, length = capacity `N`), the `head` slot index and the `free`
index vector.  Its `unwrap()`s and array indexings are *not* locally guarded:
they rely on cross-structure invariants, so every operation is written in an
`Option` monad where `none` models abnormal termination (an out-of-bounds
array index / `unwrap` panic, or a walk that exceeds the arena size and hence
could only arise from a cyclic chain).  Loops (`loop`/`while let`) are
translated with explicit fuel; fuel exhaustion also yields `none`.
-/

namespace LinkedListImpls

/-- Node of the dynamic list: `struct Node<T> { data: T, next: Option<Box<Node<T>>> }`.
The chain of boxes is represented as a `List T`; this structure is kept only
for the static variant (below).  For the static list,
`struct Node<T> { data: T, next: Option<usize> }`. -/
structure SNode (T : Type) where
  data : T
  next : Option Nat
deriving DecidableEq, Repr

/-- The error string used by both variants for an invalid index. -/
def oobMsg : String := "Index out of bounds"

/-- The error string `insert_at_index` of the static list uses when no free
slot is available. -/
def fullMsg : String := "List is full"

/-- The console message `StaticLinkedList::insert` prints when the list is
full (`println!` in the source). -/
def fullConsoleMsg : String := "StaticLinkedList is full. Cannot insert more elements."

namespace DLL

variable {T : Type} [DecidableEq T]

/-- `DynamicLinkedList::insert`: walk from head to the tail node (the node
whose `next` is `None`) and attach a new node there; on an empty list the new
node becomes head. -/
def insert : List T → T → List T
  | [], d => [d]
  | x :: xs, d => x :: insert xs d

/-- Walk of `insert_at_index` for `index = k+1`: `current` starts at `&mut
head` and moves `k` links; hitting `None` during the walk or at its end
returns `Err("Index out of bounds")`, otherwise the new node is spliced in
after the node reached. -/
def insertAtIndexAux : List T → Nat → T → List T × Except String Unit
  | [], _, _ => ([], .error oobMsg)
  | x :: xs, 0, d => (x :: d :: xs, .ok ())
  | x :: xs, k + 1, d =>
    match insertAtIndexAux xs k d with
    | (r, e) => (x :: r, e)

/-- `DynamicLinkedList::insert_at_index`: `index == 0` splices in front of
head in O(1); otherwise walk `index - 1` links and splice after the node
reached. -/
def insertAtIndex (l : List T) (index : Nat) (d : T) : List T × Except String Unit :=
  match index with
  | 0 => (d :: l, .ok ())
  | k + 1 => insertAtIndexAux l k d

/-- Loop of `delete_element` after the head special case: `current` starts at
head (whose data is already known not to match); each step inspects
`current.next` and either splices it out or advances. -/
def deleteElementAux : List T → T → List T × Bool
  | [], _ => ([], false)
  | [x], _ => ([x], false)
  | x :: y :: rest, d =>
    if y = d then (x :: rest, true)
    else
      match deleteElementAux (y :: rest) d with
      | (r, b) => (x :: r, b)

/-- `DynamicLinkedList::delete_element`: empty list returns `false`; a
matching head is removed by re-pointing head; otherwise the predecessor walk
of `deleteElementAux` runs. -/
def deleteElement (l : List T) (d : T) : List T × Bool :=
  match l with
  | [] => ([], false)
  | x :: xs => if x = d then (xs, true) else deleteElementAux (x :: xs) d

/-- Walk of `delete_at_index` for `index = k+1`: move `k` links from head,
then remove `current.next` (erroring when it is `None`). -/
def deleteAtIndexAux : List T → Nat → List T × Except String Unit
  | [], _ => ([], .error oobMsg)
  | [x], 0 => ([x], .error oobMsg)
  | x :: _ :: rest, 0 => (x :: rest, .ok ())
  | x :: xs, k + 1 =>
    match deleteAtIndexAux xs k with
    | (r, e) => (x :: r, e)

/-- `DynamicLinkedList::delete_at_index`: `index == 0` re-points head (error
on an empty list); otherwise walk and splice out the successor. -/
def deleteAtIndex (l : List T) (index : Nat) : List T × Except String Unit :=
  match index with
  | 0 =>
    match l with
    | [] => ([], .error oobMsg)
    | _ :: xs => (xs, .ok ())
  | k + 1 => deleteAtIndexAux l k

/-- `DynamicLinkedList::update_element`: walk from head and overwrite the
data of the first node equal to `old`. -/
def updateElement : List T → T → T → List T × Bool
  | [], _, _ => ([], false)
  | x :: xs, old, new =>
    if x = old then (new :: xs, true)
    else
      match updateElement xs old new with
      | (r, b) => (x :: r, b)

/-- `DynamicLinkedList::update_element_at_index`: walk `index` links from
head (erroring on `None`), then overwrite the data of the node reached. -/
def updateElementAtIndex : List T → Nat → T → List T × Except String Unit
  | [], _, _ => ([], .error oobMsg)
  | _ :: xs, 0, d => (d :: xs, .ok ())
  | x :: xs, k + 1, d =>
    match updateElementAtIndex xs k d with
    | (r, e) => (x :: r, e)

/-- `DynamicLinkedList::find`: walk from head testing equality. -/
def find : List T → T → Bool
  | [], _ => false
  | x :: xs, d => if x = d then true else find xs d

/-- `DynamicLinkedList::get`: walk `index` links from head (returning `none`
when a link is absent), then return the data of the node reached. -/
def get : List T → Nat → Option T
  | [], _ => none
  | x :: _, 0 => some x
  | _ :: xs, k + 1 => get xs k

end DLL

/-- `StaticLinkedList<T, N>`: `nodes: [Option<Node<T>>; N]` (here a list of
length `N`, the capacity being `nodes.length`), `head: Option<usize>`,
`free: Vec<usize>`. -/
structure SLL (T : Type) where
  nodes : List (Option (SNode T))
  head : Option Nat
  free : List Nat
deriving DecidableEq, Repr

namespace SLL

variable {T : Type} [DecidableEq T]

/-- Read `self.nodes[i].as_ref().unwrap()`-style access: `none` when `i` is
out of the array bounds (index panic) or the slot is empty (`unwrap` panic). -/
def getN (nodes : List (Option (SNode T))) (i : Nat) : Option (SNode T) :=
  (nodes[i]?).join

/-- Write `self.nodes[i] = v`: `none` models the index-out-of-bounds panic. -/
def setNode (s : SLL T) (i : Nat) (v : Option (SNode T)) : Option (SLL T) :=
  if i < s.nodes.length then some { s with nodes := s.nodes.set i v } else none

/-- Read-modify-write `self.nodes[i].as_mut().unwrap()` followed by a field
assignment: `none` models the `unwrap` panic on an empty slot. -/
def modifyNode (s : SLL T) (i : Nat) (f : SNode T → SNode T) : Option (SLL T) :=
  match getN s.nodes i with
  | some nd => setNode s i (some (f nd))
  | none => none

/-- Ascending insertion used to model `sort_unstable` on the free vector. -/
def sortInsert (x : Nat) : List Nat → List Nat
  | [] => [x]
  | y :: ys => if x ≤ y then x :: y :: ys else y :: sortInsert x ys

/-- `Vec::sort_unstable` on the free vector: sorts ascending. -/
def sortNat : List Nat → List Nat
  | [] => []
  | x :: xs => sortInsert x (sortNat xs)

/-- `StaticLinkedList::new`: all slots empty, `head = None`, `free`
containing all `N` indices in order. -/
def new (T : Type) (N : Nat) : SLL T :=
  { nodes := List.replicate N none, head := none, free := List.range N }

/-- `allocate_node`: returns `(state, None)` when `free` is empty (list
full); otherwise removes the first free index, writes `Some(Node { data,
next: None })` into that slot and returns its index.  The outer `Option` is
the panic monad (the slot write can index-panic on a corrupt free vector). -/
def allocateNode (s : SLL T) (data : T) : Option (SLL T × Option Nat) :=
  match s.free with
  | [] => some (s, none)
  | index :: rest =>
    match setNode { s with free := rest } index (some { data := data, next := none }) with
    | some s1 => some (s1, some index)
    | none => none

/-- `deallocate_node`: clears the slot, pushes its index onto `free` and
re-sorts `free` ascending. -/
def deallocateNode (s : SLL T) (index : Nat) : Option (SLL T) :=
  match setNode s index none with
  | some s1 => some { s1 with free := sortNat (s1.free ++ [index]) }
  | none => none

/-- The `loop` of `insert`: follow `next` links from `cur` to the tail node
and set its `next` to `newIdx`.  Fuel exhaustion (`none`) can only arise from
a cyclic chain, on which the source loop would not terminate. -/
def insertTail (s : SLL T) (fuel : Nat) (cur : Nat) (newIdx : Nat) : Option (SLL T) :=
  match fuel with
  | 0 => none
  | f + 1 =>
    match getN s.nodes cur with
    | none => none
    | some nd =>
      match nd.next with
      | none => modifyNode s cur (fun n => { n with next := some newIdx })
      | some nxt => insertTail s f nxt newIdx

/-- `StaticLinkedList::insert` (trait impl): allocate a slot; on success
link it at the tail (or make it head); on allocation failure print the
console message and return.  The returned `Option String` is the console
output — the Rust method's own return type is `()`, so the caller receives no
failure value. -/
def insert (s : SLL T) (data : T) : Option (SLL T × Option String) :=
  match allocateNode s data with
  | none => none
  | some (s1, some index) =>
    match s1.head with
    | none => some ({ s1 with head := some index }, none)
    | some headIndex =>
      match insertTail s1 (s1.nodes.length + 1) headIndex index with
      | some s2 => some (s2, none)
      | none => none
  | some (s1, none) => some (s1, some fullConsoleMsg)

/-- The walk `for _ in 0..k { match current_index { Some(i) => current_index
= self.nodes[i].unwrap().next, None => return ... } }` shared by the
index-based operations.  An early `None` exit and finishing the walk at
`None` produce the same answer at every call site, so both are returned as
`some none`; the outer `Option` is the panic monad. -/
def walk (nodes : List (Option (SNode T))) : Nat → Option Nat → Option (Option Nat)
  | 0, cur => some cur
  | _ + 1, none => some none
  | k + 1, some i =>
    match getN nodes i with
    | none => none
    | some nd => walk nodes k nd.next

/-- `StaticLinkedList::insert_at_index`: `index == 0` allocates and makes the
new slot the head; otherwise walk `index - 1` links (erroring with
`"Index out of bounds"`), then allocate and splice after the slot reached
(erroring with `"List is full"` when no slot is free).  The splice first sets
the new slot's `next` to the successor, then re-points the predecessor. -/
def insertAtIndex (s : SLL T) (index : Nat) (data : T) :
    Option (SLL T × Except String Unit) :=
  match index with
  | 0 =>
    match allocateNode s data with
    | none => none
    | some (s1, some newIdx) =>
      match modifyNode s1 newIdx (fun n => { n with next := s1.head }) with
      | some s2 => some ({ s2 with head := some newIdx }, .ok ())
      | none => none
    | some (s1, none) => some (s1, .error fullMsg)
  | k + 1 =>
    match walk s.nodes k s.head with
    | none => none
    | some none => some (s, .error oobMsg)
    | some (some i) =>
      match allocateNode s data with
      | none => none
      | some (s1, some newIdx) =>
        match getN s1.nodes i with
        | none => none
        | some ndi =>
          match modifyNode s1 newIdx (fun n => { n with next := ndi.next }) with
          | none => none
          | some s2 =>
            match modifyNode s2 i (fun n => { n with next := some newIdx }) with
            | none => none
            | some s3 => some (s3, .ok ())
      | some (s1, none) => some (s1, .error fullMsg)

/-- The `while let Some(i) = current_index` loop of `delete_element`: inspect
the successor of slot `i`; splice it out (re-pointing `i`'s `next` before
deallocating) when its data matches, otherwise advance. -/
def deleteElementLoop (s : SLL T) (fuel : Nat) (i : Nat) (data : T) :
    Option (SLL T × Bool) :=
  match fuel with
  | 0 => none
  | f + 1 =>
    match getN s.nodes i with
    | none => none
    | some nd =>
      match nd.next with
      | none => some (s, false)
      | some j =>
        match getN s.nodes j with
        | none => none
        | some ndj =>
          if ndj.data = data then
            match modifyNode s i (fun n => { n with next := ndj.next }) with
            | none => none
            | some s1 =>
              match deallocateNode s1 j with
              | none => none
              | some s2 => some (s2, true)
          else deleteElementLoop s f j data

/-- `StaticLinkedList::delete_element`: empty list returns `false`; a
matching head is removed by re-pointing `head` and deallocating the old head
slot; otherwise the predecessor loop runs from the head slot. -/
def deleteElement (s : SLL T) (data : T) : Option (SLL T × Bool) :=
  match s.head with
  | none => some (s, false)
  | some headIndex =>
    match getN s.nodes headIndex with
    | none => none
    | some hnd =>
      if hnd.data = data then
        match deallocateNode { s with head := hnd.next } headIndex with
        | none => none
        | some s1 => some (s1, true)
      else deleteElementLoop s (s.nodes.length + 1) headIndex data

/-- `StaticLinkedList::delete_at_index`: `index == 0` re-points `head` and
deallocates the old head slot (error on an empty list); otherwise walk
`index - 1` links and splice out the successor of the slot reached,
re-pointing the predecessor before deallocating. -/
def deleteAtIndex (s : SLL T) (index : Nat) : Option (SLL T × Except String Unit) :=
  match index with
  | 0 =>
    match s.head with
    | none => some (s, .error oobMsg)
    | some headIndex =>
      match getN s.nodes headIndex with
      | none => none
      | some hnd =>
        match deallocateNode { s with head := hnd.next } headIndex with
        | none => none
        | some s1 => some (s1, .ok ())
  | k + 1 =>
    match walk s.nodes k s.head with
    | none => none
    | some none => some (s, .error oobMsg)
    | some (some i) =>
      match getN s.nodes i with
      | none => none
      | some nd =>
        match nd.next with
        | none => some (s, .error oobMsg)
        | some j =>
          match getN s.nodes j with
          | none => none
          | some ndj =>
            match modifyNode s i (fun n => { n with next := ndj.next }) with
            | none => none
            | some s1 =>
              match deallocateNode s1 j with
              | none => none
              | some s2 => some (s2, .ok ())

/-- The `while let` loop of `update_element`: overwrite the data of the
first slot on the chain whose data equals `old`. -/
def updateElementLoop (s : SLL T) (fuel : Nat) (cur : Option Nat) (old new : T) :
    Option (SLL T × Bool) :=
  match fuel, cur with
  | _, none => some (s, false)
  | 0, some _ => none
  | f + 1, some i =>
    match getN s.nodes i with
    | none => none
    | some nd =>
      if nd.data = old then
        match modifyNode s i (fun n => { n with data := new }) with
        | none => none
        | some s1 => some (s1, true)
      else updateElementLoop s f nd.next old new

/-- `StaticLinkedList::update_element`. -/
def updateElement (s : SLL T) (old new : T) : Option (SLL T × Bool) :=
  updateElementLoop s (s.nodes.length + 1) s.head old new

/-- `StaticLinkedList::update_element_at_index`: walk `index` links from
head (erroring on `None`), then overwrite the data of the slot reached. -/
def updateElementAtIndex (s : SLL T) (index : Nat) (data : T) :
    Option (SLL T × Except String Unit) :=
  match walk s.nodes index s.head with
  | none => none
  | some none => some (s, .error oobMsg)
  | some (some i) =>
    match modifyNode s i (fun n => { n with data := data }) with
    | none => none
    | some s1 => some (s1, .ok ())

/-- The `while let` loop of `find`. -/
def findLoop (nodes : List (Option (SNode T))) (fuel : Nat) (cur : Option Nat)
    (data : T) : Option Bool :=
  match fuel, cur with
  | _, none => some false
  | 0, some _ => none
  | f + 1, some i =>
    match getN nodes i with
    | none => none
    | some nd => if nd.data = data then some true else findLoop nodes f nd.next data

/-- `StaticLinkedList::find`. -/
def find (s : SLL T) (data : T) : Option Bool :=
  findLoop s.nodes (s.nodes.length + 1) s.head data

/-- `StaticLinkedList::get`: walk `index` links from head (returning `None`
on an absent link), then return the data of the slot reached. -/
def get (s : SLL T) (index : Nat) : Option (Option T) :=
  match walk s.nodes index s.head with
  | none => none
  | some none => some none
  | some (some i) =>
    match getN s.nodes i with
    | none => none
    | some nd => some (some nd.data)

end SLL

/-- `Rep nodes cur ixs vals`: starting at link `cur`, following `next` links
through the `nodes` arena visits exactly the slot indices `ixs` (in order),
every visited slot is occupied, the stored data along the chain reads `vals`,
and the chain terminates at a slot whose `next` is `none`. -/
inductive Rep {T : Type} (nodes : List (Option (SNode T))) :
    Option Nat → List Nat → List T → Prop where
  | nil : Rep nodes none [] []
  | cons {i : Nat} {nd : SNode T} {ixs : List Nat} {vals : List T} :
      SLL.getN nodes i = some nd → Rep nodes nd.next ixs vals →
      Rep nodes (some i) (i :: ixs) (nd.data :: vals)

/-- Full structural invariant of a static list state, with the reachable
index list `ixs` and the logical element sequence `l` made explicit:
the chain from `head` is well formed (`Rep`), visits no slot twice, the free
vector has no duplicates and stays inside the arena, `free` and the
reachable indices partition `[0, N)`, and a slot is occupied exactly when it
is reachable (no leaked slots). -/
structure GoodIx {T : Type} (s : SLL T) (ixs : List Nat) (l : List T) : Prop where
  rep : Rep s.nodes s.head ixs l
  nodupIx : ixs.Nodup
  nodupFree : s.free.Nodup
  freeLt : ∀ i ∈ s.free, i < s.nodes.length
  part : ∀ i < s.nodes.length, (i ∈ s.free ↔ i ∉ ixs)
  occ : ∀ i < s.nodes.length, ((SLL.getN s.nodes i).isSome ↔ i ∈ ixs)

/-- A static list state is `Good l` when it satisfies the structural
invariant and represents the logical element sequence `l`. -/
def Good {T : Type} (s : SLL T) (l : List T) : Prop :=
  ∃ ixs, GoodIx s ixs l

/-- The operations of `LinkedListTrait`, the shared interface contract. -/
inductive Op (T : Type) where
  | insert (d : T)
  | insertAtIndex (i : Nat) (d : T)
  | deleteElement (d : T)
  | deleteAtIndex (i : Nat)
  | updateElement (old new : T)
  | updateElementAtIndex (i : Nat) (d : T)
  | find (d : T)
  | get (i : Nat)
deriving DecidableEq, Repr

/-- The caller-visible result of one trait operation: `insert` returns unit,
the index-based operations return `Result<(), String>`, the search/update
by-value operations return a boolean, `get` returns an optional element. -/
inductive OpResult (T : Type) where
  | unit
  | res (r : Except String Unit)
  | bool (b : Bool)
  | found (v : Option T)
deriving Repr

variable {T : Type} [DecidableEq T]

/-- One step of the dynamic list under the shared interface. -/
def dllStep (l : List T) : Op T → List T × OpResult T
  | .insert d => (DLL.insert l d, .unit)
  | .insertAtIndex i d =>
    match DLL.insertAtIndex l i d with
    | (l1, r) => (l1, .res r)
  | .deleteElement d =>
    match DLL.deleteElement l d with
    | (l1, b) => (l1, .bool b)
  | .deleteAtIndex i =>
    match DLL.deleteAtIndex l i with
    | (l1, r) => (l1, .res r)
  | .updateElement old new =>
    match DLL.updateElement l old new with
    | (l1, b) => (l1, .bool b)
  | .updateElementAtIndex i d =>
    match DLL.updateElementAtIndex l i d with
    | (l1, r) => (l1, .res r)
  | .find d => (l, .found (if DLL.find l d then some d else none))
  | .get i => (l, .found (DLL.get l i))

/-- Run a sequence of operations on the dynamic list, collecting the result
of each operation. -/
def dllRun (l : List T) : List (Op T) → List T × List (OpResult T)
  | [] => (l, [])
  | op :: ops =>
    match dllStep l op with
    | (l1, r) =>
      match dllRun l1 ops with
      | (l2, rs) => (l2, r :: rs)

/-- One step of the static list under the shared interface (`none` models a
panic; the console output of `insert` is not part of the caller-visible
result, mirroring its `()` return type). -/
def sllStep (s : SLL T) : Op T → Option (SLL T × OpResult T)
  | .insert d =>
    match SLL.insert s d with
    | some (s1, _) => some (s1, .unit)
    | none => none
  | .insertAtIndex i d =>
    match SLL.insertAtIndex s i d with
    | some (s1, r) => some (s1, .res r)
    | none => none
  | .deleteElement d =>
    match SLL.deleteElement s d with
    | some (s1, b) => some (s1, .bool b)
    | none => none
  | .deleteAtIndex i =>
    match SLL.deleteAtIndex s i with
    | some (s1, r) => some (s1, .res r)
    | none => none
  | .updateElement old new =>
    match SLL.updateElement s old new with
    | some (s1, b) => some (s1, .bool b)
    | none => none
  | .updateElementAtIndex i d =>
    match SLL.updateElementAtIndex s i d with
    | some (s1, r) => some (s1, .res r)
    | none => none
  | .find d =>
    match SLL.find s d with
    | some b => some (s, .found (if b then some d else none))
    | none => none
  | .get i =>
    match SLL.get s i with
    | some v => some (s, .found v)
    | none => none

/-- Run a sequence of operations on the static list, collecting the result
of each operation; `none` as soon as any step panics. -/
def sllRun (s : SLL T) : List (Op T) → Option (SLL T × List (OpResult T))
  | [] => some (s, [])
  | op :: ops =>
    match sllStep s op with
    | none => none
    | some (s1, r) =>
      match sllRun s1 ops with
      | none => none
      | some (s2, rs) => some (s2, r :: rs)

/-- Fold `insert` over a list of values on the static list, recording whether
any of the inserts printed the list-full console message. -/
def insertSeq (s : SLL T) : List T → Option (SLL T × Bool)
  | [] => some (s, false)
  | x :: xs =>
    match SLL.insert s x with
    | none => none
    | some (s1, msg) =>
      match insertSeq s1 xs with
      | none => none
      | some (s2, b) => some (s2, msg.isSome || b)

theorem getN_lt {nodes : List (Option (SNode T))} {i : Nat} {nd : SNode T}
    (h : SLL.getN nodes i = some nd) : i < nodes.length := by
  by_contra hge
  have : nodes[i]? = none := List.getElem?_eq_none (Nat.le_of_not_lt hge)
  simp [SLL.getN, this] at h

theorem getN_set_ne {nodes : List (Option (SNode T))} {i j : Nat}
    {v : Option (SNode T)} (h : j ≠ i) :
    SLL.getN (nodes.set j v) i = SLL.getN nodes i := by
  simp [SLL.getN, List.getElem?_set_ne h]

theorem getN_set_self {nodes : List (Option (SNode T))} {j : Nat}
    {v : Option (SNode T)} (h : j < nodes.length) :
    SLL.getN (nodes.set j v) j = v := by
  simp [SLL.getN, List.getElem?_set_eq_of_lt v h]

theorem sortInsert_perm (x : Nat) (l : List Nat) :
    List.Perm (SLL.sortInsert x l) (x :: l) := by
  induction l with
  | nil => simp [SLL.sortInsert]
  | cons y ys ih =>
    simp only [SLL.sortInsert]
    by_cases h : x ≤ y
    · simp [h]
    · rw [if_neg h]
      exact (ih.cons y).trans (List.Perm.swap x y ys)

theorem sortNat_perm (l : List Nat) : List.Perm (SLL.sortNat l) l := by
  induction l with
  | nil => simp [SLL.sortNat]
  | cons x xs ih =>
    exact (sortInsert_perm x (SLL.sortNat xs)).trans (ih.cons x)

theorem mem_sortNat {a : Nat} {l : List Nat} : a ∈ SLL.sortNat l ↔ a ∈ l :=
  (sortNat_perm l).mem_iff

theorem sortNat_nodup {l : List Nat} (h : l.Nodup) : (SLL.sortNat l).Nodup :=
  (sortNat_perm l).nodup_iff.mpr h

theorem Rep.length_eq {nodes : List (Option (SNode T))} {cur : Option Nat}
    {ixs : List Nat} {vals : List T} (h : Rep nodes cur ixs vals) :
    ixs.length = vals.length := by
  induction h with
  | nil => rfl
  | cons hget hrep ih => simpa using ih

theorem Rep.head_eq {nodes : List (Option (SNode T))} {cur : Option Nat}
    {ixs : List Nat} {vals : List T} (h : Rep nodes cur ixs vals) :
    cur = ixs.head? := by
  cases h with
  | nil => rfl
  | cons hget hrep => rfl

theorem Rep.mem_lt {nodes : List (Option (SNode T))} {cur : Option Nat}
    {ixs : List Nat} {vals : List T} (h : Rep nodes cur ixs vals) :
    ∀ i ∈ ixs, i < nodes.length := by
  induction h with
  | nil => intro i hi; simp at hi
  | cons hget hrep ih =>
    intro m hm
    rcases List.mem_cons.mp hm with hm | hm
    · exact hm ▸ getN_lt hget
    · exact ih m hm

theorem Rep.getN_isSome {nodes : List (Option (SNode T))} {cur : Option Nat}
    {ixs : List Nat} {vals : List T} (h : Rep nodes cur ixs vals) :
    ∀ i ∈ ixs, (SLL.getN nodes i).isSome := by
  induction h with
  | nil => intro i hi; simp at hi
  | cons hget hrep ih =>
    intro m hm
    rcases List.mem_cons.mp hm with hm | hm
    · subst hm; simp [hget]
    · exact ih m hm

theorem Rep.frame {nodes : List (Option (SNode T))} {cur : Option Nat}
    {ixs : List Nat} {vals : List T} {j : Nat} {v : Option (SNode T)}
    (h : Rep nodes cur ixs vals) (hj : j ∉ ixs) :
    Rep (nodes.set j v) cur ixs vals := by
  induction h with
  | nil => exact Rep.nil
  | @cons i nd ixs vals hget hrep ih =>
    have hji : j ≠ i := by rintro rfl; exact hj (List.mem_cons_self _ _)
    refine Rep.cons ?_ (ih (fun hc => hj (List.mem_cons_of_mem _ hc)))
    rw [getN_set_ne hji]
    exact hget

theorem Rep.lookup {nodes : List (Option (SNode T))} {cur : Option Nat}
    {ixs : List Nat} {vals : List T} (h : Rep nodes cur ixs vals) :
    ∀ k i, ixs[k]? = some i →
      ∃ nd, SLL.getN nodes i = some nd ∧ vals[k]? = some nd.data ∧
        nd.next = ixs[k + 1]? := by
  induction h with
  | nil => intro k i hk; simp at hk
  | cons hget hrep ih =>
    intro k m hk
    cases k with
    | zero =>
      simp only [List.getElem?_cons_zero, Option.some.injEq] at hk
      subst hk
      exact ⟨_, hget, by simp, by simp [hrep.head_eq, List.head?_eq_getElem?]⟩
    | succ n =>
      simp only [List.getElem?_cons_succ] at hk
      obtain ⟨nd, h1, h2, h3⟩ := ih n m hk
      exact ⟨nd, h1, by simpa using h2, by simpa using h3⟩

theorem nodup_lt_length_le {ixs : List Nat} {n : Nat} (hnd : ixs.Nodup)
    (hlt : ∀ i ∈ ixs, i < n) : ixs.length ≤ n := by
  have hsub : ixs ⊆ List.range n := fun i hi => List.mem_range.mpr (hlt i hi)
  simpa using (hnd.subperm hsub).length_le

theorem Rep.cons_new {nodes : List (Option (SNode T))} {cur : Option Nat}
    {ixs : List Nat} {vals : List T} (h : Rep nodes cur ixs vals)
    {f0 : Nat} (hm : f0 ∉ ixs) (hlt : f0 < nodes.length) (d : T) :
    Rep (nodes.set f0 (some { data := d, next := cur })) (some f0)
      (f0 :: ixs) (d :: vals) := by
  refine Rep.cons (getN_set_self hlt) ?_
  exact h.frame hm

theorem Rep.set_data {nodes : List (Option (SNode T))} {cur : Option Nat}
    {ixs : List Nat} {vals : List T} (h : Rep nodes cur ixs vals) (d : T) :
    ∀ k i nd, ixs.Nodup → ixs[k]? = some i → SLL.getN nodes i = some nd →
    Rep (nodes.set i (some { data := d, next := nd.next })) cur ixs (vals.set k d) := by
  induction h with
  | nil => intro k i nd _ hk _; simp at hk
  | @cons i0 nd0 ixs vals hget hrep ih =>
    intro k m nd hnd hk hgm
    have hnd' : ixs.Nodup := (List.nodup_cons.mp hnd).2
    have hi0 : i0 ∉ ixs := (List.nodup_cons.mp hnd).1
    cases k with
    | zero =>
      simp only [List.getElem?_cons_zero, Option.some.injEq] at hk
      subst hk
      rw [hget] at hgm
      cases hgm
      refine Rep.cons (getN_set_self (getN_lt hget)) ?_
      exact hrep.frame hi0
    | succ n =>
      simp only [List.getElem?_cons_succ] at hk
      have hmem : m ∈ ixs := List.getElem?_mem hk
      have hne : m ≠ i0 := fun he => hi0 (he ▸ hmem)
      rw [List.set_cons_succ]
      refine Rep.cons ?_ (ih n m nd hnd' hk hgm)
      rw [getN_set_ne hne]
      exact hget

theorem Rep.splice {nodes : List (Option (SNode T))} {cur : Option Nat}
    {ixs : List Nat} {vals : List T} (h : Rep nodes cur ixs vals)
    {f0 : Nat} (hf0lt : f0 < nodes.length) (d : T) :
    ∀ k i v, ixs.Nodup → f0 ∉ ixs → ixs[k]? = some i → vals[k]? = some v →
    Rep ((nodes.set f0 (some { data := d, next := ixs[k + 1]? })).set i
          (some { data := v, next := some f0 })) cur
      (ixs.take (k + 1) ++ f0 :: ixs.drop (k + 1))
      (vals.take (k + 1) ++ d :: vals.drop (k + 1)) := by
  induction h with
  | nil => intro k i v _ _ hk _; simp at hk
  | @cons i0 nd0 ixs vals hget hrep ih =>
    intro k m v hnd hf0 hk hv
    have hnd' : ixs.Nodup := (List.nodup_cons.mp hnd).2
    have hi0 : i0 ∉ ixs := (List.nodup_cons.mp hnd).1
    have hf0' : f0 ∉ ixs := fun hc => hf0 (List.mem_cons_of_mem _ hc)
    have hf0i0 : f0 ≠ i0 := fun he => hf0 (he ▸ List.mem_cons_self _ _)
    cases k with
    | zero =>
      simp only [List.getElem?_cons_zero, Option.some.injEq] at hk hv
      subst hk
      subst hv
      simp only [List.take_succ_cons, List.take_zero, List.drop_succ_cons,
        List.drop_zero, List.cons_append, List.nil_append, List.getElem?_cons_succ,
        List.getElem?_cons_zero]
      have hmlt : i0 < (nodes.set f0 (some { data := d, next := ixs[0]? })).length := by
        simpa using getN_lt hget
      have hgf0 : SLL.getN
          ((nodes.set f0 (some { data := d, next := ixs[0]? })).set i0
            (some { data := nd0.data, next := some f0 })) f0 =
          some { data := d, next := ixs[0]? } := by
        rw [getN_set_ne hf0i0.symm, getN_set_self hf0lt]
      have hrep' : Rep ((nodes.set f0 (some { data := d, next := ixs[0]? })).set i0
          (some { data := nd0.data, next := some f0 })) nd0.next ixs vals :=
        (hrep.frame hf0').frame hi0
      have hnext : nd0.next = ixs[0]? := by
        rw [hrep.head_eq, List.head?_eq_getElem?]
      rw [hnext] at hrep'
      have h12 := Rep.cons hgf0 hrep'
      have h123 := Rep.cons (getN_set_self hmlt) h12
      exact h123
    | succ n =>
      simp only [List.getElem?_cons_succ] at hk hv
      have hmem : m ∈ ixs := List.getElem?_mem hk
      have hne : m ≠ i0 := fun he => hi0 (he ▸ hmem)
      simp only [List.getElem?_cons_succ, List.take_succ_cons, List.drop_succ_cons,
        List.cons_append]
      refine Rep.cons ?_ (ih n m v hnd' hf0' hk hv)
      rw [getN_set_ne hne, getN_set_ne hf0i0]
      exact hget

theorem splice_perm {α : Type} (ixs : List α) (k : Nat) (f0 : α) :
    List.Perm (ixs.take (k + 1) ++ f0 :: ixs.drop (k + 1)) (f0 :: ixs) := by
  refine List.perm_middle.trans ?_
  rw [List.take_append_drop]

theorem unlink_split {α : Type} {ixs : List α} {k : Nat} {j : α}
    (hj : ixs[k + 1]? = some j) :
    ixs = ixs.take (k + 1) ++ j :: ixs.drop (k + 2) := by
  obtain ⟨hlt, heq⟩ := List.getElem?_eq_some.mp hj
  conv_lhs => rw [← List.take_append_drop (k + 1) ixs]
  rw [List.drop_eq_getElem_cons hlt, heq]

theorem unlink_perm {α : Type} {ixs : List α} {k : Nat} {j : α}
    (hj : ixs[k + 1]? = some j) :
    List.Perm ixs (j :: (ixs.take (k + 1) ++ ixs.drop (k + 2))) := by
  conv_lhs => rw [unlink_split hj]
  exact List.perm_middle

theorem Rep.unlink {nodes : List (Option (SNode T))} {cur : Option Nat}
    {ixs : List Nat} {vals : List T} (h : Rep nodes cur ixs vals) :
    ∀ k i j v, ixs.Nodup → ixs[k]? = some i → ixs[k + 1]? = some j →
      vals[k]? = some v →
    Rep (nodes.set i (some { data := v, next := ixs[k + 2]? })) cur
      (ixs.take (k + 1) ++ ixs.drop (k + 2))
      (vals.take (k + 1) ++ vals.drop (k + 2)) := by
  induction h with
  | nil => intro k i j v _ hk _ _; simp at hk
  | @cons i0 nd0 ixs vals hget hrep ih =>
    intro k m j v hnd hk hj hv
    have hnd' : ixs.Nodup := (List.nodup_cons.mp hnd).2
    have hi0 : i0 ∉ ixs := (List.nodup_cons.mp hnd).1
    cases k with
    | zero =>
      simp only [List.getElem?_cons_zero, Option.some.injEq] at hk hv
      simp only [List.getElem?_cons_succ] at hj
      subst hk
      subst hv
      have hnx : nd0.next = some j := by
        rw [hrep.head_eq, List.head?_eq_getElem?]
        exact hj
      rw [hnx] at hrep
      cases hrep with
      | @cons j2 ndj ixs2 vals2 hgetj hrepj =>
        simp only [List.take_succ_cons, List.take_zero, List.drop_succ_cons,
          List.drop_zero, List.cons_append, List.nil_append, List.getElem?_cons_succ,
          List.getElem?_cons_zero]
        have hi0' : i0 ∉ ixs2 := fun hc => hi0 (List.mem_cons_of_mem _ hc)
        have hrep2 : Rep (nodes.set i0 (some { data := nd0.data, next := ixs2[0]? }))
            ndj.next ixs2 vals2 := hrepj.frame hi0'
        have hnext2 : ndj.next = ixs2[0]? := by
          rw [hrepj.head_eq, List.head?_eq_getElem?]
        rw [hnext2] at hrep2
        have hfin := Rep.cons (getN_set_self (getN_lt hget)) hrep2
        exact hfin
    | succ n =>
      simp only [List.getElem?_cons_succ] at hk hj hv
      have hmem : m ∈ ixs := List.getElem?_mem hk
      have hne : m ≠ i0 := fun he => hi0 (he ▸ hmem)
      simp only [List.getElem?_cons_succ, List.take_succ_cons, List.drop_succ_cons,
        List.cons_append]
      refine Rep.cons ?_ (ih n m j v hnd' hk hj hv)
      rw [getN_set_ne hne]
      exact hget

theorem Rep.walk_eq {nodes : List (Option (SNode T))} {cur : Option Nat}
    {ixs : List Nat} {vals : List T} (h : Rep nodes cur ixs vals) (k : Nat) :
    SLL.walk nodes k cur = some ixs[k]? := by
  induction k generalizing cur ixs vals with
  | zero =>
    rw [h.head_eq, List.head?_eq_getElem?]
    rfl
  | succ n ih =>
    cases h with
    | nil => simp [SLL.walk]
    | cons hget hrep =>
      simp only [SLL.walk, hget]
      rw [ih hrep]
      simp

theorem findLoop_rep {nodes : List (Option (SNode T))} (d : T) :
    ∀ fuel {cur : Option Nat} {ixs : List Nat} {vals : List T},
      Rep nodes cur ixs vals → ixs.length ≤ fuel →
      SLL.findLoop nodes fuel cur d = some (DLL.find vals d) := by
  intro fuel
  induction fuel with
  | zero =>
    intro cur ixs vals h hf
    have hixs : ixs = [] := List.length_eq_zero.mp (Nat.le_zero.mp hf)
    subst hixs
    cases h
    simp [SLL.findLoop, DLL.find]
  | succ f ih =>
    intro cur ixs vals h hf
    cases h with
    | nil => simp [SLL.findLoop, DLL.find]
    | @cons i nd ixs' vals' hget hrep =>
      simp only [SLL.findLoop, hget, DLL.find]
      by_cases hd : nd.data = d
      · simp [hd]
      · simp only [hd, if_neg, if_false]
        exact ih hrep (by simpa using hf)

theorem insertTail_rep {s : SLL T} (newIdx : Nat) :
    ∀ fuel {h0 : Nat} {ixs : List Nat} {vals : List T},
      Rep s.nodes (some h0) ixs vals → ixs.length ≤ fuel →
    ∃ k lst ndl, ixs[k]? = some lst ∧ ixs[k + 1]? = none ∧
      SLL.getN s.nodes lst = some ndl ∧ ndl.next = none ∧
      SLL.insertTail s fuel h0 newIdx =
        some { s with nodes := s.nodes.set lst (some { data := ndl.data, next := some newIdx }) } := by
  intro fuel
  induction fuel with
  | zero =>
    intro h0 ixs vals h hf
    cases h
    simp at hf
  | succ f ih =>
    intro h0 ixs vals h hf
    cases h with
    | @cons i nd ixs' vals' hget hrep =>
      match hnx : nd.next with
      | none =>
        have hixs' : ixs' = [] := by
          rw [hnx] at hrep
          cases hrep
          rfl
        subst hixs'
        refine ⟨0, h0, nd, by simp, by simp, hget, hnx, ?_⟩
        simp [SLL.insertTail, hget, hnx, SLL.modifyNode, SLL.setNode, getN_lt hget]
      | some nxt =>
        rw [hnx] at hrep
        obtain ⟨k, lst, ndl, h1, h2, h3, h4, h5⟩ := ih hrep (by simpa using hf)
        refine ⟨k + 1, lst, ndl, by simpa using h1, by simpa using h2, h3, h4, ?_⟩
        simp [SLL.insertTail, hget, hnx, h5]

theorem dll_insert_eq (l : List T) (d : T) : DLL.insert l d = l ++ [d] := by
  induction l with
  | nil => rfl
  | cons x xs ih => simp [DLL.insert, ih]

theorem dll_find_eq (l : List T) (d : T) : DLL.find l d = decide (d ∈ l) := by
  induction l with
  | nil => simp [DLL.find]
  | cons x xs ih =>
    simp only [DLL.find, ih]
    by_cases h : x = d
    · simp [h]
    · have hd : d ≠ x := fun he => h he.symm
      simp [h, List.mem_cons, hd]

theorem dll_get_eq (l : List T) (i : Nat) : DLL.get l i = l[i]? := by
  induction l generalizing i with
  | nil => simp [DLL.get]
  | cons x xs ih =>
    cases i with
    | zero => simp [DLL.get]
    | succ k => simp [DLL.get, ih]

theorem dll_insertAtIndexAux_le {l : List T} {k : Nat} (d : T) (h : k < l.length) :
    DLL.insertAtIndexAux l k d = (l.take (k + 1) ++ d :: l.drop (k + 1), .ok ()) := by
  induction l generalizing k with
  | nil => simp at h
  | cons x xs ih =>
    cases k with
    | zero => simp [DLL.insertAtIndexAux]
    | succ n =>
      have hn : n < xs.length := by simpa using h
      simp [DLL.insertAtIndexAux, ih hn]

theorem dll_insertAtIndexAux_gt {l : List T} {k : Nat} (d : T) (h : l.length ≤ k) :
    DLL.insertAtIndexAux l k d = (l, .error oobMsg) := by
  induction l generalizing k with
  | nil => cases k <;> rfl
  | cons x xs ih =>
    cases k with
    | zero => simp at h
    | succ n =>
      have hn : xs.length ≤ n := by simpa using h
      simp [DLL.insertAtIndexAux, ih hn]

theorem dll_insertAtIndex_le {l : List T} {i : Nat} (d : T) (h : i ≤ l.length) :
    DLL.insertAtIndex l i d = (l.take i ++ d :: l.drop i, .ok ()) := by
  cases i with
  | zero => simp [DLL.insertAtIndex]
  | succ k => exact dll_insertAtIndexAux_le d (Nat.lt_of_succ_le h)

theorem dll_insertAtIndex_gt {l : List T} {i : Nat} (d : T) (h : l.length < i) :
    DLL.insertAtIndex l i d = (l, .error oobMsg) := by
  cases i with
  | zero => simp at h
  | succ k => exact dll_insertAtIndexAux_gt d (Nat.le_of_lt_succ h)

theorem dll_deleteAtIndexAux_lt {l : List T} {k : Nat} (h : k + 1 < l.length) :
    DLL.deleteAtIndexAux l k = (l.take (k + 1) ++ l.drop (k + 2), .ok ()) := by
  induction l generalizing k with
  | nil => simp at h
  | cons x xs ih =>
    cases k with
    | zero =>
      match xs, h with
      | y :: rest, _ => simp [DLL.deleteAtIndexAux]
    | succ n =>
      have hn : n + 1 < xs.length := by simpa using h
      simp [DLL.deleteAtIndexAux, ih hn]

theorem dll_deleteAtIndexAux_ge {l : List T} {k : Nat} (h : l.length ≤ k + 1) :
    DLL.deleteAtIndexAux l k = (l, .error oobMsg) := by
  induction l generalizing k with
  | nil => cases k <;> rfl
  | cons x xs ih =>
    cases k with
    | zero =>
      cases xs with
      | nil => rfl
      | cons y rest =>
        simp only [List.length_cons] at h
        omega
    | succ n =>
      have hn : xs.length ≤ n + 1 := by simpa using h
      simp [DLL.deleteAtIndexAux, ih hn]

theorem dll_deleteAtIndex_lt {l : List T} {i : Nat} (h : i < l.length) :
    DLL.deleteAtIndex l i = (l.take i ++ l.drop (i + 1), .ok ()) := by
  cases i with
  | zero =>
    match l, h with
    | x :: xs, _ => simp [DLL.deleteAtIndex]
  | succ k => exact dll_deleteAtIndexAux_lt h

theorem dll_deleteAtIndex_ge {l : List T} {i : Nat} (h : l.length ≤ i) :
    DLL.deleteAtIndex l i = (l, .error oobMsg) := by
  cases i with
  | zero =>
    have hl : l = [] := List.length_eq_zero.mp (Nat.le_zero.mp h)
    subst hl
    rfl
  | succ k => exact dll_deleteAtIndexAux_ge h

theorem dll_updateAtIndex_lt {l : List T} {i : Nat} (d : T) (h : i < l.length) :
    DLL.updateElementAtIndex l i d = (l.set i d, .ok ()) := by
  induction l generalizing i with
  | nil => simp at h
  | cons x xs ih =>
    cases i with
    | zero => simp [DLL.updateElementAtIndex]
    | succ n =>
      have hn : n < xs.length := by simpa using h
      simp [DLL.updateElementAtIndex, ih hn]

theorem dll_updateAtIndex_ge {l : List T} {i : Nat} (d : T) (h : l.length ≤ i) :
    DLL.updateElementAtIndex l i d = (l, .error oobMsg) := by
  induction l generalizing i with
  | nil => cases i <;> rfl
  | cons x xs ih =>
    cases i with
    | zero => simp at h
    | succ n =>
      have hn : xs.length ≤ n := by simpa using h
      simp [DLL.updateElementAtIndex, ih hn]

theorem dll_updateElement_not_mem {l : List T} {old : T} (new : T) (h : old ∉ l) :
    DLL.updateElement l old new = (l, false) := by
  induction l with
  | nil => rfl
  | cons x xs ih =>
    have hx : x ≠ old := fun he => h (he ▸ List.mem_cons_self _ _)
    have hxs : old ∉ xs := fun hc => h (List.mem_cons_of_mem _ hc)
    simp [DLL.updateElement, hx, ih hxs]

theorem dll_updateElement_first {l : List T} {old : T} (new : T) :
    ∀ k, l[k]? = some old → (∀ m < k, l[m]? ≠ some old) →
    DLL.updateElement l old new = (l.set k new, true) := by
  induction l with
  | nil => intro k hk _; simp at hk
  | cons x xs ih =>
    intro k hk hmin
    cases k with
    | zero =>
      simp only [List.getElem?_cons_zero, Option.some.injEq] at hk
      simp [DLL.updateElement, hk]
    | succ n =>
      simp only [List.getElem?_cons_succ] at hk
      have hx : x ≠ old := by
        intro he
        exact hmin 0 (Nat.succ_pos n) (by simp [he])
      have hmin' : ∀ m < n, xs[m]? ≠ some old := by
        intro m hm
        have := hmin (m + 1) (Nat.succ_lt_succ hm)
        simpa using this
      simp [DLL.updateElement, hx, ih n hk hmin']

theorem dll_deleteElementAux_eq (xs : List T) (d : T) :
    ∀ x, x ≠ d → DLL.deleteElementAux (x :: xs) d =
      ((DLL.deleteElement xs d).1.cons x, (DLL.deleteElement xs d).2) := by
  induction xs with
  | nil => intro x _; rfl
  | cons y rest ih =>
    intro x hx
    by_cases hy : y = d
    · simp [DLL.deleteElementAux, hy, DLL.deleteElement]
    · have hrec := ih y hy
      simp only [DLL.deleteElementAux, hy, if_neg, if_false]
      rw [hrec]
      have : DLL.deleteElement (y :: rest) d = DLL.deleteElementAux (y :: rest) d := by
        simp [DLL.deleteElement, hy]
      rw [this, hrec]

theorem dll_deleteElement_not_mem {l : List T} {d : T} (h : d ∉ l) :
    DLL.deleteElement l d = (l, false) := by
  induction l with
  | nil => rfl
  | cons x xs ih =>
    have hx : x ≠ d := fun he => h (he ▸ List.mem_cons_self _ _)
    have hxs : d ∉ xs := fun hc => h (List.mem_cons_of_mem _ hc)
    have haux := dll_deleteElementAux_eq xs d x hx
    have hstep : DLL.deleteElement (x :: xs) d = DLL.deleteElementAux (x :: xs) d := by
      simp [DLL.deleteElement, hx]
    rw [hstep, haux, ih hxs]

theorem dll_deleteElement_first {l : List T} {d : T} :
    ∀ k, l[k]? = some d → (∀ m < k, l[m]? ≠ some d) →
    DLL.deleteElement l d = (l.take k ++ l.drop (k + 1), true) := by
  induction l with
  | nil => intro k hk _; simp at hk
  | cons x xs ih =>
    intro k hk hmin
    cases k with
    | zero =>
      simp only [List.getElem?_cons_zero, Option.some.injEq] at hk
      simp [DLL.deleteElement, hk]
    | succ n =>
      simp only [List.getElem?_cons_succ] at hk
      have hx : x ≠ d := by
        intro he
        exact hmin 0 (Nat.succ_pos n) (by simp [he])
      have hmin' : ∀ m < n, xs[m]? ≠ some d := by
        intro m hm
        have := hmin (m + 1) (Nat.succ_lt_succ hm)
        simpa using this
      have haux := dll_deleteElementAux_eq xs d x hx
      have hstep : DLL.deleteElement (x :: xs) d = DLL.deleteElementAux (x :: xs) d := by
        simp [DLL.deleteElement, hx]
      rw [hstep, haux, ih n hk hmin']
      simp

theorem firstIdx_exists {l : List T} {d : T} (h : d ∈ l) :
    ∃ k : Nat, l[k]? = some d ∧ ∀ m < k, l[m]? ≠ some d := by
  induction l with
  | nil => simp at h
  | cons x xs ih =>
    by_cases hx : x = d
    · exact ⟨0, by simp [hx], by intro m hm; omega⟩
    · have hxs : d ∈ xs := by
        rcases List.mem_cons.mp h with he | hm
        · exact absurd he.symm hx
        · exact hm
      obtain ⟨k, hk, hmin⟩ := ih hxs
      refine ⟨k + 1, by simpa using hk, ?_⟩
      intro m hm
      cases m with
      | zero =>
        simp only [List.getElem?_cons_zero, ne_eq, Option.some.injEq]
        exact hx
      | succ n => simpa using hmin n (by omega)

theorem updateElementLoop_rep {s : SLL T} (old new : T) :
    ∀ fuel {cur : Option Nat} {ixs : List Nat} {vals : List T},
      Rep s.nodes cur ixs vals → ixs.length ≤ fuel →
    ((old ∉ vals → SLL.updateElementLoop s fuel cur old new = some (s, false)) ∧
     (∀ (k i : Nat), ixs[k]? = some i → vals[k]? = some old →
        (∀ m < k, vals[m]? ≠ some old) →
       ∃ nd, SLL.getN s.nodes i = some nd ∧
         SLL.updateElementLoop s fuel cur old new =
           some ({ s with nodes := s.nodes.set i (some { data := new, next := nd.next }) }, true))) := by
  intro fuel
  induction fuel with
  | zero =>
    intro cur ixs vals h hf
    have hixs : ixs = [] := List.length_eq_zero.mp (Nat.le_zero.mp hf)
    subst hixs
    cases h
    exact ⟨fun _ => by simp [SLL.updateElementLoop], fun k i hk => by simp at hk⟩
  | succ f ih =>
    intro cur ixs vals h hf
    cases h with
    | nil =>
      exact ⟨fun _ => by simp [SLL.updateElementLoop], fun k i hk => by simp at hk⟩
    | @cons i0 nd0 ixs' vals' hget hrep =>
      by_cases hd : nd0.data = old
      · constructor
        · intro hmem
          exact absurd (hd ▸ List.mem_cons_self nd0.data vals') hmem
        · intro k i hk hv hmin
          cases k with
          | zero =>
            simp only [List.getElem?_cons_zero, Option.some.injEq] at hk
            subst hk
            refine ⟨nd0, hget, ?_⟩
            simp [SLL.updateElementLoop, hget, hd, SLL.modifyNode, SLL.setNode,
              getN_lt hget]
          | succ n =>
            have := hmin 0 (Nat.succ_pos n)
            simp [hd] at this
      · constructor
        · intro hmem
          have hmem' : old ∉ vals' := fun hc => hmem (List.mem_cons_of_mem _ hc)
          have h1 := (ih hrep (by simpa using hf)).1 hmem'
          simp [SLL.updateElementLoop, hget, hd, h1]
        · intro k i hk hv hmin
          cases k with
          | zero =>
            simp only [List.getElem?_cons_zero, Option.some.injEq] at hv
            exact absurd hv hd
          | succ n =>
            simp only [List.getElem?_cons_succ] at hk hv
            have hmin' : ∀ m < n, vals'[m]? ≠ some old := by
              intro m hm
              have := hmin (m + 1) (Nat.succ_lt_succ hm)
              simpa using this
            obtain ⟨nd, h1, h2⟩ := (ih hrep (by simpa using hf)).2 n i hk hv hmin'
            refine ⟨nd, h1, ?_⟩
            simp [SLL.updateElementLoop, hget, hd, h2]

theorem deleteElementLoop_rep {s : SLL T} (d : T) :
    ∀ fuel {i0 : Nat} {ixs : List Nat} {vals : List T},
      Rep s.nodes (some i0) ixs vals → ixs.length ≤ fuel →
    ((d ∉ vals.tail → SLL.deleteElementLoop s fuel i0 d = some (s, false)) ∧
     (∀ k j, ixs[k + 1]? = some j → vals[k + 1]? = some d →
        (∀ m, 0 < m → m < k + 1 → vals[m]? ≠ some d) →
       ∃ pi nd ndj, ixs[k]? = some pi ∧ SLL.getN s.nodes pi = some nd ∧
         nd.next = some j ∧ SLL.getN s.nodes j = some ndj ∧ ndj.data = d ∧
         SLL.deleteElementLoop s fuel i0 d =
           some ({ s with
             nodes := (s.nodes.set pi (some { data := nd.data, next := ndj.next })).set j none,
             free := SLL.sortNat (s.free ++ [j]) }, true))) := by
  intro fuel
  induction fuel with
  | zero =>
    intro i0 ixs vals h hf
    cases h
    simp at hf
  | succ f ih =>
    intro i0 ixs vals h hf
    cases h with
    | @cons i nd0 ixs' vals' hget hrep =>
      match hnx : nd0.next with
      | none =>
        rw [hnx] at hrep
        cases hrep with
        | nil =>
          constructor
          · intro _
            simp [SLL.deleteElementLoop, hget, hnx]
          · intro k j hj
            simp at hj
      | some j1 =>
        rw [hnx] at hrep
        cases hrep with
        | @cons j2 ndj1 ixs2 vals2 hgetj hrepj =>
          by_cases hd : ndj1.data = d
          · constructor
            · intro hmem
              exact absurd (hd ▸ List.mem_cons_self ndj1.data vals2) hmem
            · intro k j hj hv hmin
              cases k with
              | zero =>
                simp only [List.getElem?_cons_succ, List.getElem?_cons_zero,
                  Option.some.injEq] at hj
                subst hj
                refine ⟨i0, nd0, ndj1, by simp, hget, hnx, hgetj, hd, ?_⟩
                have hjlt : j1 < s.nodes.length := getN_lt hgetj
                have hilt : i0 < s.nodes.length := getN_lt hget
                simp only [SLL.deleteElementLoop, hget, hnx, hgetj, hd, if_true,
                  SLL.modifyNode, SLL.setNode, hilt, if_pos, SLL.deallocateNode]
                simp [SLL.setNode, hjlt]
              | succ n =>
                have := hmin 1 Nat.one_pos (by omega)
                simp [hd] at this
          · have hrepsub : Rep s.nodes (some j1) (j1 :: ixs2) (ndj1.data :: vals2) :=
              Rep.cons hgetj hrepj
            have hsub := ih hrepsub (by simpa using hf)
            constructor
            · intro hmem
              simp only [List.tail_cons] at hmem
              have hmem2 : d ∉ (ndj1.data :: vals2).tail :=
                fun hc => hmem (List.mem_cons_of_mem _ (by simpa using hc))
              have h1 := hsub.1 hmem2
              simp [SLL.deleteElementLoop, hget, hnx, hgetj, hd, h1]
            · intro k j hj hv hmin
              cases k with
              | zero =>
                simp only [List.getElem?_cons_succ, List.getElem?_cons_zero,
                  Option.some.injEq] at hv
                exact absurd hv hd
              | succ n =>
                simp only [List.getElem?_cons_succ] at hj hv
                have hmin' : ∀ m, 0 < m → m < n + 1 →
                    (ndj1.data :: vals2)[m]? ≠ some d := by
                  intro m hm0 hmlt
                  have := hmin (m + 1) (Nat.succ_pos m) (by omega)
                  match m, hm0 with
                  | Nat.succ m2, _ => simpa using this
                obtain ⟨pi, nd, ndj, h1, h2, h3, h4, h5, h6⟩ :=
                  hsub.2 n j (by simpa using hj) (by simpa using hv) hmin'
                refine ⟨pi, nd, ndj, by simpa using h1, h2, h3, h4, h5, ?_⟩
                simp [SLL.deleteElementLoop, hget, hnx, hgetj, hd, h6]

theorem GoodIx.ixs_le {s : SLL T} {ixs : List Nat} {l : List T}
    (g : GoodIx s ixs l) : ixs.length ≤ s.nodes.length :=
  nodup_lt_length_le g.nodupIx g.rep.mem_lt

theorem GoodIx.len_le {s : SLL T} {ixs : List Nat} {l : List T}
    (g : GoodIx s ixs l) : l.length ≤ s.nodes.length :=
  g.rep.length_eq ▸ g.ixs_le

theorem goodIx_free_nil {s : SLL T} {ixs : List Nat} {l : List T}
    (g : GoodIx s ixs l) (hfull : l.length = s.nodes.length) : s.free = [] := by
  have hlen : ixs.length = s.nodes.length := by rw [g.rep.length_eq, hfull]
  have hsub : ixs ⊆ List.range s.nodes.length :=
    fun i hi => List.mem_range.mpr (g.rep.mem_lt i hi)
  have hperm : List.Perm ixs (List.range s.nodes.length) :=
    (g.nodupIx.subperm hsub).perm_of_length_le (by simp [hlen])
  have hall : ∀ i < s.nodes.length, i ∈ ixs := by
    intro i hi
    exact hperm.mem_iff.mpr (List.mem_range.mpr hi)
  rw [List.eq_nil_iff_forall_not_mem]
  intro f hf
  have hflt := g.freeLt f hf
  exact ((g.part f hflt).mp hf) (hall f hflt)

theorem goodIx_free_cons {s : SLL T} {ixs : List Nat} {l : List T}
    (g : GoodIx s ixs l) (hlt : l.length < s.nodes.length) :
    ∃ f0 rest, s.free = f0 :: rest := by
  cases hfr : s.free with
  | cons f0 rest => exact ⟨f0, rest, rfl⟩
  | nil =>
    exfalso
    have hall : ∀ i < s.nodes.length, i ∈ ixs := by
      intro i hi
      by_contra hni
      have := (g.part i hi).mpr hni
      rw [hfr] at this
      simp at this
    have hsub : List.range s.nodes.length ⊆ ixs :=
      fun i hi => hall i (List.mem_range.mp hi)
    have := ((List.nodup_range _).subperm hsub).length_le
    rw [List.length_range] at this
    rw [g.rep.length_eq] at this
    omega

theorem allocateNode_nil {s : SLL T} (d : T) (h : s.free = []) :
    SLL.allocateNode s d = some (s, none) := by
  simp [SLL.allocateNode, h]

theorem allocateNode_cons {s : SLL T} (d : T) {f0 : Nat} {rest : List Nat}
    (h : s.free = f0 :: rest) (hlt : f0 < s.nodes.length) :
    SLL.allocateNode s d =
      some ({ s with nodes := s.nodes.set f0 (some { data := d, next := none }),
                     free := rest }, some f0) := by
  simp [SLL.allocateNode, h, SLL.setNode, hlt]

theorem goodIx_alloc_extend {s : SLL T} {ixs : List Nat} {l : List T}
    (g : GoodIx s ixs l) {f0 : Nat} {rest : List Nat} (hfr : s.free = f0 :: rest)
    {nodes' : List (Option (SNode T))} {head' : Option Nat} {ixs' : List Nat}
    {l' : List T} (hrep' : Rep nodes' head' ixs' l')
    (hlen : nodes'.length = s.nodes.length)
    (hperm : List.Perm ixs' (f0 :: ixs))
    (hocc : ∀ i < s.nodes.length,
      ((SLL.getN nodes' i).isSome ↔ ((SLL.getN s.nodes i).isSome ∨ i = f0))) :
    GoodIx { nodes := nodes', head := head', free := rest } ixs' l' := by
  have hf0free : f0 ∈ s.free := by rw [hfr]; exact List.mem_cons_self _ _
  have hf0lt : f0 < s.nodes.length := g.freeLt f0 hf0free
  have hf0ixs : f0 ∉ ixs := (g.part f0 hf0lt).mp hf0free
  have hfreend := g.nodupFree
  rw [hfr] at hfreend
  have hf0rest : f0 ∉ rest := (List.nodup_cons.mp hfreend).1
  have hrestnd : rest.Nodup := (List.nodup_cons.mp hfreend).2
  have hmem' : ∀ i, i ∈ ixs' ↔ (i = f0 ∨ i ∈ ixs) := by
    intro i
    rw [hperm.mem_iff, List.mem_cons]
  refine ⟨hrep', ?_, hrestnd, ?_, ?_, ?_⟩
  · exact hperm.nodup_iff.mpr (List.nodup_cons.mpr ⟨hf0ixs, g.nodupIx⟩)
  · intro i hi
    have : i ∈ s.free := by rw [hfr]; exact List.mem_cons_of_mem _ hi
    simpa [hlen] using g.freeLt i this
  · intro i hi
    rw [hlen] at hi
    rw [hmem' i]
    constructor
    · intro hir
      have hine : i ≠ f0 := fun he => hf0rest (he ▸ hir)
      have : i ∈ s.free := by rw [hfr]; exact List.mem_cons_of_mem _ hir
      have := (g.part i hi).mp this
      tauto
    · intro hni
      push_neg at hni
      have : i ∈ s.free := (g.part i hi).mpr hni.2
      rw [hfr] at this
      rcases List.mem_cons.mp this with he | hm
      · exact absurd he hni.1
      · exact hm
  · intro i hi
    rw [hlen] at hi
    rw [hocc i hi, hmem' i, g.occ i hi]
    tauto

theorem goodIx_dealloc_shrink {s : SLL T} {ixs : List Nat} {l : List T}
    (g : GoodIx s ixs l) {j : Nat} (hj : j ∈ ixs)
    {nodes' : List (Option (SNode T))} {head' : Option Nat} {ixs' : List Nat}
    {l' : List T} (hrep' : Rep nodes' head' ixs' l')
    (hlen : nodes'.length = s.nodes.length)
    (hperm : List.Perm ixs (j :: ixs'))
    (hocc : ∀ i < s.nodes.length,
      ((SLL.getN nodes' i).isSome ↔ ((SLL.getN s.nodes i).isSome ∧ i ≠ j))) :
    GoodIx { nodes := nodes', head := head',
             free := SLL.sortNat (s.free ++ [j]) } ixs' l' := by
  have hjlt : j < s.nodes.length := g.rep.mem_lt j hj
  have hjfree : j ∉ s.free := fun hc => (g.part j hjlt).mp hc hj
  have hndcons : (j :: ixs').Nodup := hperm.nodup_iff.mp g.nodupIx
  have hjixs' : j ∉ ixs' := (List.nodup_cons.mp hndcons).1
  have hnd' : ixs'.Nodup := (List.nodup_cons.mp hndcons).2
  have hmem' : ∀ i, i ∈ ixs ↔ (i = j ∨ i ∈ ixs') := by
    intro i
    rw [hperm.mem_iff, List.mem_cons]
  have happnd : (s.free ++ [j]).Nodup := by
    rw [List.nodup_append]
    exact ⟨g.nodupFree, List.nodup_singleton j,
      fun a ha hb => by simp at hb; exact hjfree (hb ▸ ha)⟩
  refine ⟨hrep', hnd', sortNat_nodup happnd, ?_, ?_, ?_⟩
  · intro i hi
    rw [mem_sortNat, List.mem_append] at hi
    rw [hlen]
    rcases hi with hi | hi
    · exact g.freeLt i hi
    · simp at hi
      exact hi ▸ hjlt
  · intro i hi
    rw [hlen] at hi
    rw [mem_sortNat, List.mem_append]
    constructor
    · intro hir hmem
      rcases hir with hif | hij
      · exact (g.part i hi).mp hif ((hmem' i).mpr (Or.inr hmem))
      · simp at hij
        exact hjixs' (hij ▸ hmem)
    · intro hni
      by_cases hij : i = j
      · exact Or.inr (by simp [hij])
      · refine Or.inl ((g.part i hi).mpr ?_)
        rw [hmem' i]
        push_neg
        exact ⟨hij, hni⟩
  · intro i hi
    rw [hlen] at hi
    rw [hocc i hi, g.occ i hi, hmem' i]
    constructor
    · rintro ⟨hor, hne⟩
      tauto
    · intro hmem
      exact ⟨Or.inr hmem, fun he => hjixs' (he ▸ hmem)⟩

theorem goodIx_same_shape {s : SLL T} {ixs : List Nat} {l : List T}
    (g : GoodIx s ixs l)
    {nodes' : List (Option (SNode T))} {head' : Option Nat} {l' : List T}
    (hrep' : Rep nodes' head' ixs l')
    (hlen : nodes'.length = s.nodes.length)
    (hocc : ∀ i < s.nodes.length,
      ((SLL.getN nodes' i).isSome ↔ (SLL.getN s.nodes i).isSome)) :
    GoodIx { nodes := nodes', head := head', free := s.free } ixs l' := by
  refine ⟨hrep', g.nodupIx, g.nodupFree, ?_, ?_, ?_⟩
  · intro i hi
    rw [hlen]
    exact g.freeLt i hi
  · intro i hi
    rw [hlen] at hi
    exact g.part i hi
  · intro i hi
    rw [hlen] at hi
    rw [hocc i hi]
    exact g.occ i hi

theorem sllInsertFull {s : SLL T} {ixs : List Nat} {l : List T}
    (g : GoodIx s ixs l) (hfull : l.length = s.nodes.length) (d : T) :
    SLL.insert s d = some (s, some fullConsoleMsg) := by
  have hnil := goodIx_free_nil g hfull
  rw [SLL.insert, allocateNode_nil d hnil]

theorem sllInsertOk {s : SLL T} {ixs : List Nat} {l : List T}
    (g : GoodIx s ixs l) (hlt : l.length < s.nodes.length) (d : T) :
    ∃ s', SLL.insert s d = some (s', none) ∧ Good s' (l ++ [d]) ∧
      s'.nodes.length = s.nodes.length := by
  obtain ⟨f0, rest, hfr⟩ := goodIx_free_cons g hlt
  have hf0mem : f0 ∈ s.free := by rw [hfr]; exact List.mem_cons_self _ _
  have hf0lt : f0 < s.nodes.length := g.freeLt f0 hf0mem
  have hf0ixs : f0 ∉ ixs := (g.part f0 hf0lt).mp hf0mem
  have halloc := allocateNode_cons d hfr hf0lt
  cases hhead : s.head with
  | none =>
    have hrep := g.rep
    rw [hhead] at hrep
    cases hrep
    refine ⟨{ nodes := s.nodes.set f0 (some { data := d, next := none }),
              head := some f0, free := rest }, ?_, ?_, by simp⟩
    · rw [SLL.insert, halloc]
      simp [hhead]
    · refine ⟨[f0], goodIx_alloc_extend g hfr ?_ (by simp) (by rfl) ?_⟩
      · exact Rep.cons (getN_set_self hf0lt) Rep.nil
      · intro i hi
        by_cases hif : i = f0
        · subst hif
          simp [getN_set_self hf0lt]
        · rw [getN_set_ne (fun he => hif he.symm)]
          tauto
  | some h0 =>
    have hrep0 := g.rep
    rw [hhead] at hrep0
    have hrep1 : Rep (({ nodes := s.nodes.set f0 (some { data := d, next := none }), head := s.head, free := rest } : SLL T)).nodes (some h0) ixs l :=
      hrep0.frame hf0ixs
    have hfuel : ixs.length ≤
        (s.nodes.set f0 (some { data := d, next := none })).length + 1 := by
      have := g.ixs_le
      simp only [List.length_set]
      omega
    obtain ⟨k, lst, ndl, hk, hk1, hndl, hnext, heq⟩ :=
      @insertTail_rep T _
        ({ nodes := s.nodes.set f0 (some { data := d, next := none }), head := s.head, free := rest } : SLL T) f0
        ((s.nodes.set f0 (some { data := d, next := none })).length + 1)
        h0 ixs l hrep1 hfuel
    have hlstm : lst ∈ ixs := List.getElem?_mem hk
    have hlstf0 : lst ≠ f0 := fun he => hf0ixs (he ▸ hlstm)
    have hndl0 : SLL.getN s.nodes lst = some ndl := by
      rw [← getN_set_ne (v := some { data := d, next := none }) (fun he => hlstf0 he.symm)]
      exact hndl
    obtain ⟨nds, hnds, hval, hnxs⟩ := hrep0.lookup k lst hk
    have hndseq : ndl = nds := by
      rw [hndl0] at hnds
      exact (Option.some.injEq _ _).mp hnds
    subst hndseq
    have hklen : k + 1 = ixs.length := by
      have h1 : ixs.length ≤ k + 1 := List.getElem?_eq_none_iff.mp hk1
      have h2 : k < ixs.length := (List.getElem?_eq_some.mp hk).1
      omega
    have hllen : k + 1 = l.length := by rw [hklen, g.rep.length_eq]
    have hsplice := hrep0.splice hf0lt d k lst ndl.data g.nodupIx hf0ixs hk hval
    rw [hk1] at hsplice
    rw [hklen, List.take_length, List.drop_length, g.rep.length_eq,
      List.take_length, List.drop_length] at hsplice
    rw [hhead] at heq
    refine ⟨{ nodes := (s.nodes.set f0 (some { data := d, next := none })).set lst
                (some { data := ndl.data, next := some f0 }),
              head := s.head, free := rest }, ?_, ?_, by simp⟩
    · rw [SLL.insert, halloc]
      simp only [hhead, heq]
    · rw [hhead]
      refine ⟨ixs ++ [f0], goodIx_alloc_extend g hfr hsplice (by simp)
        List.perm_append_comm ?_⟩
      intro i hi
      by_cases hil : i = lst
      · subst hil
        rw [getN_set_self (by simpa using g.rep.mem_lt i hlstm)]
        simp only [Option.isSome_some, true_iff]
        left
        rw [hndl0]
        rfl
      · rw [getN_set_ne (fun he => hil he.symm)]
        by_cases hif : i = f0
        · subst hif
          rw [getN_set_self hf0lt]
          simp
        · rw [getN_set_ne (fun he => hif he.symm)]
          tauto

theorem sllInsertAtOob {s : SLL T} {ixs : List Nat} {l : List T}
    (g : GoodIx s ixs l) {index : Nat} (d : T) (hgt : l.length < index) :
    SLL.insertAtIndex s index d = some (s, .error oobMsg) := by
  match index, hgt with
  | k + 1, hgt =>
    have hkge : ixs.length ≤ k := by
      rw [g.rep.length_eq]
      omega
    have hwalk := g.rep.walk_eq k
    rw [List.getElem?_eq_none hkge] at hwalk
    rw [SLL.insertAtIndex, hwalk]

theorem sllInsertAtFull {s : SLL T} {ixs : List Nat} {l : List T}
    (g : GoodIx s ixs l) {index : Nat} (d : T) (hle : index ≤ l.length)
    (hfull : l.length = s.nodes.length) :
    SLL.insertAtIndex s index d = some (s, .error fullMsg) := by
  have hnil := goodIx_free_nil g hfull
  cases index with
  | zero => rw [SLL.insertAtIndex, allocateNode_nil d hnil]
  | succ k =>
    have hklt : k < ixs.length := by
      rw [g.rep.length_eq]
      omega
    have hwalk := g.rep.walk_eq k
    rw [List.getElem?_eq_getElem hklt] at hwalk
    rw [SLL.insertAtIndex, hwalk, allocateNode_nil d hnil]

theorem sllInsertAtOk {s : SLL T} {ixs : List Nat} {l : List T}
    (g : GoodIx s ixs l) {index : Nat} (d : T) (hle : index ≤ l.length)
    (hlt : l.length < s.nodes.length) :
    ∃ s', SLL.insertAtIndex s index d = some (s', .ok ()) ∧
      Good s' (l.take index ++ d :: l.drop index) ∧
      s'.nodes.length = s.nodes.length := by
  obtain ⟨f0, rest, hfr⟩ := goodIx_free_cons g hlt
  have hf0mem : f0 ∈ s.free := by rw [hfr]; exact List.mem_cons_self _ _
  have hf0lt : f0 < s.nodes.length := g.freeLt f0 hf0mem
  have hf0ixs : f0 ∉ ixs := (g.part f0 hf0lt).mp hf0mem
  have halloc := allocateNode_cons d hfr hf0lt
  cases index with
  | zero =>
    refine ⟨{ nodes := s.nodes.set f0 (some { data := d, next := s.head }),
              head := some f0, free := rest }, ?_, ?_, by simp⟩
    · rw [SLL.insertAtIndex, halloc]
      have hg1 : SLL.getN (s.nodes.set f0 (some { data := d, next := none })) f0 =
          some { data := d, next := none } := getN_set_self hf0lt
      simp only [SLL.modifyNode, hg1, SLL.setNode, List.length_set, hf0lt, if_pos]
      simp [List.set_set]
    · refine ⟨f0 :: ixs, goodIx_alloc_extend g hfr
        (g.rep.cons_new hf0ixs hf0lt d) (by simp) (List.Perm.refl _) ?_⟩
      intro i hi
      by_cases hif : i = f0
      · subst hif
        simp [getN_set_self hf0lt]
      · rw [getN_set_ne (fun he => hif he.symm)]
        tauto
  | succ k =>
    have hklt : k < ixs.length := by
      rw [g.rep.length_eq]
      omega
    have hwalk := g.rep.walk_eq k
    rw [List.getElem?_eq_getElem hklt] at hwalk
    obtain ⟨nd, hnd, hval, hnxs⟩ := g.rep.lookup k ixs[k] (List.getElem?_eq_getElem hklt)
    have him : ixs[k] ∈ ixs := List.getElem_mem hklt
    have hif0 : ixs[k] ≠ f0 := fun he => hf0ixs (he ▸ him)
    have hilt : ixs[k] < s.nodes.length := g.rep.mem_lt _ him
    have hsplice := g.rep.splice hf0lt d k ixs[k] nd.data g.nodupIx hf0ixs
      (List.getElem?_eq_getElem hklt) hval
    rw [← hnxs] at hsplice
    refine ⟨{ nodes := (s.nodes.set f0 (some { data := d, next := nd.next })).set ixs[k]
                (some { data := nd.data, next := some f0 }),
              head := s.head, free := rest }, ?_, ?_, by simp⟩
    · rw [SLL.insertAtIndex, hwalk, halloc]
      have hgi : SLL.getN (s.nodes.set f0 (some { data := d, next := none })) ixs[k] =
          some nd := by
        rw [getN_set_ne hif0.symm]
        exact hnd
      have hg1 : SLL.getN (s.nodes.set f0 (some { data := d, next := none })) f0 =
          some { data := d, next := none } := getN_set_self hf0lt
      simp only [hgi, SLL.modifyNode, hg1, SLL.setNode, List.length_set, hf0lt,
        if_pos, List.set_set]
      have hgi2 : SLL.getN (s.nodes.set f0 (some { data := d, next := nd.next })) ixs[k] =
          some nd := by
        rw [getN_set_ne hif0.symm]
        exact hnd
      simp [hgi2, SLL.setNode, hilt]
    · refine ⟨ixs.take (k + 1) ++ f0 :: ixs.drop (k + 1),
        goodIx_alloc_extend g hfr hsplice (by simp) (splice_perm ixs k f0) ?_⟩
      intro i hi
      by_cases hil : i = ixs[k]
      · subst hil
        rw [getN_set_self (by simpa using hilt)]
        simp only [Option.isSome_some, true_iff]
        left
        rw [hnd]
        rfl
      · rw [getN_set_ne (fun he => hil he.symm)]
        by_cases hif : i = f0
        · subst hif
          rw [getN_set_self hf0lt]
          simp
        · rw [getN_set_ne (fun he => hif he.symm)]
          tauto

theorem nodup_getElem?_ne {xs : List Nat} (hnd : xs.Nodup) {a b : Nat} {x y : Nat}
    (ha : xs[a]? = some x) (hb : xs[b]? = some y) (hab : a ≠ b) : x ≠ y := by
  obtain ⟨hal, hae⟩ := List.getElem?_eq_some.mp ha
  obtain ⟨hbl, hbe⟩ := List.getElem?_eq_some.mp hb
  intro he
  apply hab
  rw [← List.Nodup.getElem_inj_iff hnd]
  rw [hae, hbe, he]

theorem Rep.cons_inv {nodes : List (Option (SNode T))} {cur : Option Nat}
    {ixs : List Nat} {vals : List T} (h : Rep nodes cur ixs vals)
    {h0 : Nat} (hc : cur = some h0) :
    ∃ nd ixs' vals', ixs = h0 :: ixs' ∧ vals = nd.data :: vals' ∧
      SLL.getN nodes h0 = some nd ∧ Rep nodes nd.next ixs' vals' := by
  cases h with
  | nil => simp at hc
  | @cons i nd ixs' vals' hget hrep =>
    simp only [Option.some.injEq] at hc
    subst hc
    exact ⟨nd, ixs', vals', rfl, rfl, hget, hrep⟩

theorem sllDeleteAtOob {s : SLL T} {ixs : List Nat} {l : List T}
    (g : GoodIx s ixs l) {index : Nat} (hge : l.length ≤ index) :
    SLL.deleteAtIndex s index = some (s, .error oobMsg) := by
  cases index with
  | zero =>
    have hl : l = [] := List.length_eq_zero.mp (Nat.le_zero.mp hge)
    subst hl
    have hrep := g.rep
    have hixs : ixs = [] := List.length_eq_zero.mp g.rep.length_eq
    subst hixs
    have hh : s.head = none := hrep.head_eq
    rw [SLL.deleteAtIndex, hh]
  | succ k =>
    by_cases hk : k < ixs.length
    · have hkl : k + 1 = l.length := by
        have := g.rep.length_eq
        omega
      have hwalk := g.rep.walk_eq k
      rw [List.getElem?_eq_getElem hk] at hwalk
      obtain ⟨nd, hnd, hval, hnxs⟩ := g.rep.lookup k ixs[k] (List.getElem?_eq_getElem hk)
      have hnone : ixs[k + 1]? = none := by
        apply List.getElem?_eq_none
        rw [g.rep.length_eq, ← hkl]
      rw [hnone] at hnxs
      rw [SLL.deleteAtIndex, hwalk]
      simp only [hnd, hnxs]
    · have hnone : ixs[k]? = none := List.getElem?_eq_none (Nat.le_of_not_lt hk)
      have hwalk := g.rep.walk_eq k
      rw [hnone] at hwalk
      rw [SLL.deleteAtIndex, hwalk]

theorem sllDeleteAtOk {s : SLL T} {ixs : List Nat} {l : List T}
    (g : GoodIx s ixs l) {index : Nat} (hlt : index < l.length) :
    ∃ s', SLL.deleteAtIndex s index = some (s', .ok ()) ∧
      Good s' (l.take index ++ l.drop (index + 1)) ∧
      s'.nodes.length = s.nodes.length := by
  cases index with
  | zero =>
    cases hixs : ixs with
    | nil =>
      exfalso
      have hle := g.rep.length_eq
      rw [hixs] at hle
      simp at hle
      omega
    | cons h0 ixs' =>
      have g' : GoodIx s (h0 :: ixs') l := hixs ▸ g
      have hh : s.head = some h0 := by rw [g'.rep.head_eq]; rfl
      obtain ⟨nd0, ixs2, vals2, hixseq, hvalseq, hget, hrept⟩ := g'.rep.cons_inv hh
      have hixs2 : ixs2 = ixs' := (List.cons.injEq _ _ _ _).mp hixseq |>.2.symm
      subst hixs2
      have hh0i : h0 ∉ ixs2 := (List.nodup_cons.mp g'.nodupIx).1
      have hh0lt : h0 < s.nodes.length := getN_lt hget
      refine ⟨{ nodes := s.nodes.set h0 none, head := nd0.next,
                free := SLL.sortNat (s.free ++ [h0]) }, ?_, ?_, by simp⟩
      · rw [SLL.deleteAtIndex, hh]
        simp only [hget, SLL.deallocateNode, SLL.setNode, hh0lt, if_pos]
      · refine ⟨ixs2, ?_⟩
        have hldrop : l.take 0 ++ l.drop 1 = vals2 := by
          rw [hvalseq]
          simp
        rw [hldrop]
        refine goodIx_dealloc_shrink g' (List.mem_cons_self _ _)
          (hrept.frame hh0i) (by simp) (List.Perm.refl _) ?_
        intro i hi
        by_cases hih : i = h0
        · subst hih
          simp [getN_set_self hh0lt]
        · rw [getN_set_ne (fun he => hih he.symm)]
          simp [hih]
  | succ k =>
    have hk1lt : k + 1 < ixs.length := by rw [g.rep.length_eq]; exact hlt
    have hklt : k < ixs.length := Nat.lt_of_succ_lt hk1lt
    have hwalk := g.rep.walk_eq k
    rw [List.getElem?_eq_getElem hklt] at hwalk
    obtain ⟨nd, hnd, hval, hnxs⟩ := g.rep.lookup k ixs[k] (List.getElem?_eq_getElem hklt)
    have hk1 : ixs[k + 1]? = some ixs[k + 1] := List.getElem?_eq_getElem hk1lt
    obtain ⟨ndj, hndj, hvalj, hnxj⟩ := g.rep.lookup (k + 1) ixs[k + 1] hk1
    rw [hk1] at hnxs
    have hjm : ixs[k + 1] ∈ ixs := List.getElem_mem hk1lt
    have hjlt : ixs[k + 1] < s.nodes.length := g.rep.mem_lt _ hjm
    have hpij : ixs[k] ≠ ixs[k + 1] :=
      nodup_getElem?_ne g.nodupIx (List.getElem?_eq_getElem hklt) hk1 (by omega)
    have hpilt : ixs[k] < s.nodes.length := g.rep.mem_lt _ (List.getElem_mem hklt)
    have hunlink := g.rep.unlink k ixs[k] ixs[k + 1] nd.data g.nodupIx
      (List.getElem?_eq_getElem hklt) hk1 hval
    rw [← hnxj] at hunlink
    have hjnm : ixs[k + 1] ∉ ixs.take (k + 1) ++ ixs.drop (k + 2) := by
      have hperm := unlink_perm hk1
      have := hperm.nodup_iff.mp g.nodupIx
      exact (List.nodup_cons.mp this).1
    refine ⟨{ nodes := (s.nodes.set ixs[k]
                (some { data := nd.data, next := ndj.next })).set ixs[k + 1] none,
              head := s.head, free := SLL.sortNat (s.free ++ [ixs[k + 1]]) },
            ?_, ?_, by simp⟩
    · rw [SLL.deleteAtIndex, hwalk]
      simp only [hnd, hnxs, hndj, SLL.modifyNode, SLL.setNode, hpilt, if_pos,
        SLL.deallocateNode, List.length_set, hjlt]
    · refine ⟨ixs.take (k + 1) ++ ixs.drop (k + 2), ?_⟩
      refine goodIx_dealloc_shrink g hjm (hunlink.frame hjnm) (by simp)
        (unlink_perm hk1) ?_
      intro i hi
      by_cases hij : i = ixs[k + 1]
      · subst hij
        have hz : SLL.getN ((s.nodes.set ixs[k]
            (some { data := nd.data, next := ndj.next })).set ixs[k + 1] none)
            ixs[k + 1] = none := getN_set_self (by simpa using hjlt)
        simp [hz]
      · rw [getN_set_ne (fun he => hij he.symm)]
        by_cases hip : i = ixs[k]
        · subst hip
          rw [getN_set_self hpilt]
          simp only [Option.isSome_some, true_iff]
          refine ⟨?_, hij⟩
          rw [hnd]
          rfl
        · rw [getN_set_ne (fun he => hip he.symm)]
          simp [hij]

theorem sllDeleteElNotMem {s : SLL T} {ixs : List Nat} {l : List T}
    (g : GoodIx s ixs l) {d : T} (h : d ∉ l) :
    SLL.deleteElement s d = some (s, false) := by
  cases hixs : ixs with
  | nil =>
    have hrep := g.rep
    rw [hixs] at hrep
    have hh : s.head = none := hrep.head_eq
    rw [SLL.deleteElement, hh]
  | cons h0 ixs2 =>
    have g' : GoodIx s (h0 :: ixs2) l := hixs ▸ g
    have hh : s.head = some h0 := by rw [g'.rep.head_eq]; rfl
    obtain ⟨nd0, ixs3, vals3, hixseq, hvalseq, hget, hrept⟩ := g'.rep.cons_inv hh
    have hd0 : nd0.data ≠ d := by
      intro he
      apply h
      rw [hvalseq, he]
      exact List.mem_cons_self _ _
    have hdt : d ∉ (nd0.data :: vals3).tail := by
      intro hc
      apply h
      rw [hvalseq]
      exact List.mem_cons_of_mem _ (by simpa using hc)
    have hfuel : (h0 :: ixs3).length ≤ s.nodes.length + 1 := by
      have := g'.ixs_le
      rw [hixseq] at this
      omega
    have hrepc : Rep s.nodes (some h0) (h0 :: ixs3) (nd0.data :: vals3) :=
      Rep.cons hget hrept
    have hloop := (deleteElementLoop_rep d (s.nodes.length + 1) hrepc hfuel).1 hdt
    rw [SLL.deleteElement, hh]
    simp only [hget, hd0, if_neg, if_false, hloop]

theorem sllDeleteElMem {s : SLL T} {ixs : List Nat} {l : List T}
    (g : GoodIx s ixs l) {d : T} {k : Nat}
    (hk : l[k]? = some d) (hmin : ∀ m < k, l[m]? ≠ some d) :
    ∃ s', SLL.deleteElement s d = some (s', true) ∧
      Good s' (l.take k ++ l.drop (k + 1)) ∧ s'.nodes.length = s.nodes.length := by
  have hklt : k < l.length := (List.getElem?_eq_some.mp hk).1
  cases k with
  | zero =>
    cases hixs : ixs with
    | nil =>
      exfalso
      have hle := g.rep.length_eq
      rw [hixs] at hle
      simp at hle
      omega
    | cons h0 ixs2 =>
      have g' : GoodIx s (h0 :: ixs2) l := hixs ▸ g
      have hh : s.head = some h0 := by rw [g'.rep.head_eq]; rfl
      obtain ⟨nd0, ixs3, vals3, hixseq, hvalseq, hget, hrept⟩ := g'.rep.cons_inv hh
      have hixs3 : ixs3 = ixs2 := (List.cons.injEq _ _ _ _).mp hixseq |>.2.symm
      subst hixs3
      have hd0 : nd0.data = d := by
        rw [hvalseq] at hk
        simpa using hk
      have hh0i : h0 ∉ ixs3 := (List.nodup_cons.mp g'.nodupIx).1
      have hh0lt : h0 < s.nodes.length := getN_lt hget
      refine ⟨{ nodes := s.nodes.set h0 none, head := nd0.next,
                free := SLL.sortNat (s.free ++ [h0]) }, ?_, ?_, by simp⟩
      · rw [SLL.deleteElement, hh]
        simp only [hget, hd0, if_pos, SLL.deallocateNode, SLL.setNode, hh0lt]
      · refine ⟨ixs3, ?_⟩
        have hldrop : l.take 0 ++ l.drop 1 = vals3 := by
          rw [hvalseq]
          simp
        rw [hldrop]
        refine goodIx_dealloc_shrink g' (List.mem_cons_self _ _)
          (hrept.frame hh0i) (by simp) (List.Perm.refl _) ?_
        intro i hi
        by_cases hih : i = h0
        · subst hih
          simp [getN_set_self hh0lt]
        · rw [getN_set_ne (fun he => hih he.symm)]
          simp [hih]
  | succ m =>
    have hm1 : m + 1 < ixs.length := by rw [g.rep.length_eq]; exact hklt
    have h0lt : 0 < ixs.length := by omega
    have hh : s.head = some ixs[0] := by
      rw [g.rep.head_eq, List.head?_eq_getElem?, List.getElem?_eq_getElem h0lt]
    have hrep0 : Rep s.nodes (some ixs[0]) ixs l := by
      rw [← hh]
      exact g.rep
    have hfuel : ixs.length ≤ s.nodes.length + 1 := Nat.le_succ_of_le g.ixs_le
    have hj : ixs[m + 1]? = some ixs[m + 1] := List.getElem?_eq_getElem hm1
    have hmin03 : ∀ m2, 0 < m2 → m2 < m + 1 → l[m2]? ≠ some d :=
      fun m2 _ hlt2 => hmin m2 hlt2
    obtain ⟨pi, nd, ndj, hpi, hndpi, hnext, hndj, hdataj, heq⟩ :=
      (deleteElementLoop_rep d (s.nodes.length + 1) hrep0 hfuel).2 m ixs[m + 1]
        hj hk hmin03
    obtain ⟨nd00, hnd00, hval00, hnx00⟩ :=
      g.rep.lookup 0 ixs[0] (List.getElem?_eq_getElem h0lt)
    have hd00 : nd00.data ≠ d := by
      intro he
      exact hmin 0 (Nat.succ_pos m) (by rw [hval00, he])
    obtain ⟨ndm, hndm, hvalm, hnxm⟩ := g.rep.lookup m pi hpi
    have hndmeq : ndm = nd := by
      rw [hndpi] at hndm
      exact ((Option.some.injEq _ _).mp hndm).symm
    have hvalnd : l[m]? = some nd.data := by rw [hvalm, hndmeq]
    obtain ⟨ndj2, hndj2, hvalj2, hnxj2⟩ := g.rep.lookup (m + 1) ixs[m + 1] hj
    have hndjeq : ndj2 = ndj := by
      rw [hndj] at hndj2
      exact ((Option.some.injEq _ _).mp hndj2).symm
    have hnxj : ndj.next = ixs[m + 1 + 1]? := by rw [← hndjeq]; exact hnxj2
    have hjm : ixs[m + 1] ∈ ixs := List.getElem_mem hm1
    have hunlink := g.rep.unlink m pi ixs[m + 1] nd.data g.nodupIx hpi hj hvalnd
    rw [← hnxj] at hunlink
    rw [hh] at heq
    have hjnm : ixs[m + 1] ∉ ixs.take (m + 1) ++ ixs.drop (m + 2) := by
      have hperm := unlink_perm hj
      have := hperm.nodup_iff.mp g.nodupIx
      exact (List.nodup_cons.mp this).1
    have hpim : pi ∈ ixs := List.getElem?_mem hpi
    have hpilt : pi < s.nodes.length := g.rep.mem_lt _ hpim
    have hjlt : ixs[m + 1] < s.nodes.length := g.rep.mem_lt _ hjm
    refine ⟨{ nodes := (s.nodes.set pi
                (some { data := nd.data, next := ndj.next })).set ixs[m + 1] none,
              head := s.head, free := SLL.sortNat (s.free ++ [ixs[m + 1]]) },
            ?_, ?_, by simp⟩
    · rw [SLL.deleteElement, hh]
      simp only [hnd00, hd00, if_neg, if_false, heq]
    · refine ⟨ixs.take (m + 1) ++ ixs.drop (m + 2), ?_⟩
      refine goodIx_dealloc_shrink g hjm (hunlink.frame hjnm) (by simp)
        (unlink_perm hj) ?_
      intro i hi
      by_cases hij : i = ixs[m + 1]
      · subst hij
        have hz : SLL.getN ((s.nodes.set pi
            (some { data := nd.data, next := ndj.next })).set ixs[m + 1] none)
            ixs[m + 1] = none := getN_set_self (by simpa using hjlt)
        simp [hz]
      · rw [getN_set_ne (fun he => hij he.symm)]
        by_cases hip : i = pi
        · subst hip
          rw [getN_set_self hpilt]
          simp only [Option.isSome_some, true_iff]
          refine ⟨?_, hij⟩
          rw [hndpi]
          rfl
        · rw [getN_set_ne (fun he => hip he.symm)]
          simp [hij]

theorem sllUpdateAtOob {s : SLL T} {ixs : List Nat} {l : List T}
    (g : GoodIx s ixs l) {index : Nat} (d : T) (hge : l.length ≤ index) :
    SLL.updateElementAtIndex s index d = some (s, .error oobMsg) := by
  have hnone : ixs[index]? = none := by
    apply List.getElem?_eq_none
    rw [g.rep.length_eq]
    exact hge
  have hwalk := g.rep.walk_eq index
  rw [hnone] at hwalk
  rw [SLL.updateElementAtIndex, hwalk]

theorem sllUpdateAtOk {s : SLL T} {ixs : List Nat} {l : List T}
    (g : GoodIx s ixs l) {index : Nat} (d : T) (hlt : index < l.length) :
    ∃ s', SLL.updateElementAtIndex s index d = some (s', .ok ()) ∧
      Good s' (l.set index d) ∧ s'.nodes.length = s.nodes.length := by
  have hilt : index < ixs.length := by rw [g.rep.length_eq]; exact hlt
  have hwalk := g.rep.walk_eq index
  rw [List.getElem?_eq_getElem hilt] at hwalk
  obtain ⟨nd, hnd, hval, hnxs⟩ :=
    g.rep.lookup index ixs[index] (List.getElem?_eq_getElem hilt)
  have hplt : ixs[index] < s.nodes.length := g.rep.mem_lt _ (List.getElem_mem hilt)
  have hsd := g.rep.set_data d index ixs[index] nd g.nodupIx
    (List.getElem?_eq_getElem hilt) hnd
  refine ⟨{ nodes := s.nodes.set ixs[index] (some { data := d, next := nd.next }),
            head := s.head, free := s.free }, ?_, ?_, by simp⟩
  · rw [SLL.updateElementAtIndex, hwalk]
    simp only [SLL.modifyNode, hnd, SLL.setNode, hplt, if_pos]
  · refine ⟨ixs, goodIx_same_shape g hsd (by simp) ?_⟩
    intro i hi
    by_cases hip : i = ixs[index]
    · subst hip
      rw [getN_set_self hplt, hnd]
      simp
    · rw [getN_set_ne (fun he => hip he.symm)]

theorem sllUpdateElNotMem {s : SLL T} {ixs : List Nat} {l : List T}
    (g : GoodIx s ixs l) {old : T} (new : T) (h : old ∉ l) :
    SLL.updateElement s old new = some (s, false) := by
  have hfuel : ixs.length ≤ s.nodes.length + 1 := Nat.le_succ_of_le g.ixs_le
  exact (updateElementLoop_rep old new (s.nodes.length + 1) g.rep hfuel).1 h

theorem sllUpdateElMem {s : SLL T} {ixs : List Nat} {l : List T}
    (g : GoodIx s ixs l) {old : T} (new : T) {k : Nat}
    (hk : l[k]? = some old) (hmin : ∀ m < k, l[m]? ≠ some old) :
    ∃ s', SLL.updateElement s old new = some (s', true) ∧
      Good s' (l.set k new) ∧ s'.nodes.length = s.nodes.length := by
  have hklt : k < l.length := (List.getElem?_eq_some.mp hk).1
  have hilt : k < ixs.length := by rw [g.rep.length_eq]; exact hklt
  have hfuel : ixs.length ≤ s.nodes.length + 1 := Nat.le_succ_of_le g.ixs_le
  obtain ⟨nd, hnd, heq⟩ :=
    (updateElementLoop_rep old new (s.nodes.length + 1) g.rep hfuel).2 k ixs[k]
      (List.getElem?_eq_getElem hilt) hk hmin
  have hplt : ixs[k] < s.nodes.length := g.rep.mem_lt _ (List.getElem_mem hilt)
  obtain ⟨nd2, hnd2, hval2, hnx2⟩ :=
    g.rep.lookup k ixs[k] (List.getElem?_eq_getElem hilt)
  have hndeq : nd2 = nd := by
    rw [hnd] at hnd2
    exact ((Option.some.injEq _ _).mp hnd2).symm
  have hsd := g.rep.set_data new k ixs[k] nd g.nodupIx
    (List.getElem?_eq_getElem hilt) hnd
  refine ⟨{ nodes := s.nodes.set ixs[k] (some { data := new, next := nd.next }),
            head := s.head, free := s.free }, heq, ?_, by simp⟩
  refine ⟨ixs, goodIx_same_shape g hsd (by simp) ?_⟩
  intro i hi
  by_cases hip : i = ixs[k]
  · subst hip
    rw [getN_set_self hplt, hnd]
    simp
  · rw [getN_set_ne (fun he => hip he.symm)]

theorem sllFindEq {s : SLL T} {ixs : List Nat} {l : List T}
    (g : GoodIx s ixs l) (d : T) :
    SLL.find s d = some (DLL.find l d) := by
  have hfuel : ixs.length ≤ s.nodes.length + 1 := Nat.le_succ_of_le g.ixs_le
  exact findLoop_rep d (s.nodes.length + 1) g.rep hfuel

theorem sllGetEq {s : SLL T} {ixs : List Nat} {l : List T}
    (g : GoodIx s ixs l) (index : Nat) :
    SLL.get s index = some l[index]? := by
  have hwalk := g.rep.walk_eq index
  by_cases hilt : index < ixs.length
  · rw [List.getElem?_eq_getElem hilt] at hwalk
    obtain ⟨nd, hnd, hval, hnxs⟩ :=
      g.rep.lookup index ixs[index] (List.getElem?_eq_getElem hilt)
    rw [SLL.get, hwalk]
    simp only [hnd]
    rw [hval]
  · have hnone : ixs[index]? = none := List.getElem?_eq_none (Nat.le_of_not_lt hilt)
    rw [hnone] at hwalk
    have hlnone : l[index]? = none := by
      apply List.getElem?_eq_none
      rw [← g.rep.length_eq]
      exact Nat.le_of_not_lt hilt
    rw [SLL.get, hwalk, hlnone]

theorem good_new (T : Type) [DecidableEq T] (N : Nat) : Good (SLL.new T N) [] := by
  refine ⟨[], Rep.nil, List.nodup_nil, ?_, ?_, ?_, ?_⟩
  · exact List.nodup_range N
  · intro i hi
    simp only [SLL.new, List.length_replicate]
    exact List.mem_range.mp hi
  · intro i hi
    simp only [SLL.new]
    simp only [SLL.new, List.length_replicate] at hi
    simp [List.mem_range, hi]
  · intro i hi
    simp only [SLL.new, List.length_replicate] at hi
    simp only [SLL.new, SLL.getN]
    rw [List.getElem?_replicate, if_pos hi]
    simp

theorem sllStep_sim {s : SLL T} {l : List T} (hg : Good s l) (op : Op T) :
    ∃ s' res l', sllStep s op = some (s', res) ∧ Good s' l' ∧
      s'.nodes.length = s.nodes.length ∧
      ((dllStep l op).1.length ≤ s.nodes.length →
        l' = (dllStep l op).1 ∧ res = (dllStep l op).2) := by
  obtain ⟨ixs, g⟩ := hg
  cases op with
  | insert d =>
    rcases Nat.lt_or_ge l.length s.nodes.length with hlt | hge
    · obtain ⟨s', heq, hgood, hlen⟩ := sllInsertOk g hlt d
      refine ⟨s', .unit, l ++ [d], ?_, hgood, hlen, ?_⟩
      · simp [sllStep, heq]
      · intro _
        simp [dllStep, dll_insert_eq]
    · have hfull : l.length = s.nodes.length := Nat.le_antisymm g.len_le hge
      have heq := sllInsertFull g hfull d
      refine ⟨s, .unit, l, ?_, ⟨ixs, g⟩, rfl, ?_⟩
      · simp [sllStep, heq]
      · intro hcap
        exfalso
        simp only [dllStep, dll_insert_eq, List.length_append,
          List.length_singleton] at hcap
        omega
  | insertAtIndex i d =>
    rcases Nat.lt_or_ge l.length i with hgt | hle
    · have heq := sllInsertAtOob g d hgt
      refine ⟨s, .res (.error oobMsg), l, ?_, ⟨ixs, g⟩, rfl, ?_⟩
      · simp [sllStep, heq]
      · intro _
        simp [dllStep, dll_insertAtIndex_gt d hgt]
    · rcases Nat.lt_or_ge l.length s.nodes.length with hlt | hge
      · obtain ⟨s', heq, hgood, hlen⟩ := sllInsertAtOk g d hle hlt
        refine ⟨s', .res (.ok ()), l.take i ++ d :: l.drop i, ?_, hgood, hlen, ?_⟩
        · simp [sllStep, heq]
        · intro _
          simp [dllStep, dll_insertAtIndex_le d hle]
      · have hfull : l.length = s.nodes.length := Nat.le_antisymm g.len_le hge
        have heq := sllInsertAtFull g d hle hfull
        refine ⟨s, .res (.error fullMsg), l, ?_, ⟨ixs, g⟩, rfl, ?_⟩
        · simp [sllStep, heq]
        · intro hcap
          exfalso
          simp only [dllStep, dll_insertAtIndex_le d hle, List.length_append,
            List.length_cons, List.length_take, List.length_drop] at hcap
          omega
  | deleteElement d =>
    by_cases hmem : d ∈ l
    · obtain ⟨k, hk, hmin⟩ := firstIdx_exists hmem
      obtain ⟨s', heq, hgood, hlen⟩ := sllDeleteElMem g hk hmin
      refine ⟨s', .bool true, l.take k ++ l.drop (k + 1), ?_, hgood, hlen, ?_⟩
      · simp [sllStep, heq]
      · intro _
        simp [dllStep, dll_deleteElement_first k hk hmin]
    · have heq := sllDeleteElNotMem g hmem
      refine ⟨s, .bool false, l, ?_, ⟨ixs, g⟩, rfl, ?_⟩
      · simp [sllStep, heq]
      · intro _
        simp [dllStep, dll_deleteElement_not_mem hmem]
  | deleteAtIndex i =>
    rcases Nat.lt_or_ge i l.length with hlt | hge
    · obtain ⟨s', heq, hgood, hlen⟩ := sllDeleteAtOk g hlt
      refine ⟨s', .res (.ok ()), l.take i ++ l.drop (i + 1), ?_, hgood, hlen, ?_⟩
      · simp [sllStep, heq]
      · intro _
        simp [dllStep, dll_deleteAtIndex_lt hlt]
    · have heq := sllDeleteAtOob g hge
      refine ⟨s, .res (.error oobMsg), l, ?_, ⟨ixs, g⟩, rfl, ?_⟩
      · simp [sllStep, heq]
      · intro _
        simp [dllStep, dll_deleteAtIndex_ge hge]
  | updateElement old new =>
    by_cases hmem : old ∈ l
    · obtain ⟨k, hk, hmin⟩ := firstIdx_exists hmem
      obtain ⟨s', heq, hgood, hlen⟩ := sllUpdateElMem g new hk hmin
      refine ⟨s', .bool true, l.set k new, ?_, hgood, hlen, ?_⟩
      · simp [sllStep, heq]
      · intro _
        simp [dllStep, dll_updateElement_first new k hk hmin]
    · have heq := sllUpdateElNotMem g new hmem
      refine ⟨s, .bool false, l, ?_, ⟨ixs, g⟩, rfl, ?_⟩
      · simp [sllStep, heq]
      · intro _
        simp [dllStep, dll_updateElement_not_mem new hmem]
  | updateElementAtIndex i d =>
    rcases Nat.lt_or_ge i l.length with hlt | hge
    · obtain ⟨s', heq, hgood, hlen⟩ := sllUpdateAtOk g d hlt
      refine ⟨s', .res (.ok ()), l.set i d, ?_, hgood, hlen, ?_⟩
      · simp [sllStep, heq]
      · intro _
        simp [dllStep, dll_updateAtIndex_lt d hlt]
    · have heq := sllUpdateAtOob g d hge
      refine ⟨s, .res (.error oobMsg), l, ?_, ⟨ixs, g⟩, rfl, ?_⟩
      · simp [sllStep, heq]
      · intro _
        simp [dllStep, dll_updateAtIndex_ge d hge]
  | find d =>
    have heq := sllFindEq g d
    refine ⟨s, .found (if DLL.find l d then some d else none), l, ?_,
      ⟨ixs, g⟩, rfl, ?_⟩
    · simp [sllStep, heq]
    · intro _
      simp [dllStep]
  | get i =>
    have heq := sllGetEq g i
    refine ⟨s, .found l[i]?, l, ?_, ⟨ixs, g⟩, rfl, ?_⟩
    · simp [sllStep, heq]
    · intro _
      simp [dllStep, dll_get_eq]

theorem dllRun_cons (l : List T) (op : Op T) (ops : List (Op T)) :
    dllRun l (op :: ops) = ((dllRun (dllStep l op).1 ops).1,
      (dllStep l op).2 :: (dllRun (dllStep l op).1 ops).2) := rfl

theorem sllRun_good : ∀ (ops : List (Op T)) (s : SLL T) (l : List T), Good s l →
    ∃ s' rs l', sllRun s ops = some (s', rs) ∧ Good s' l' ∧
      s'.nodes.length = s.nodes.length := by
  intro ops
  induction ops with
  | nil =>
    intro s l hg
    exact ⟨s, [], l, rfl, hg, rfl⟩
  | cons op rest ih =>
    intro s l hg
    obtain ⟨s1, res, l1, hstep, hg1, hlen1, _⟩ := sllStep_sim hg op
    obtain ⟨s2, rs, l2, hrun, hg2, hlen2⟩ := ih s1 l1 hg1
    refine ⟨s2, res :: rs, l2, ?_, hg2, by rw [hlen2, hlen1]⟩
    simp only [sllRun, hstep, hrun]

theorem sllRun_equiv : ∀ (ops : List (Op T)) (s : SLL T) (l : List T), Good s l →
    (∀ p, List.IsPrefix p ops → (dllRun l p).1.length ≤ s.nodes.length) →
    ∃ s', sllRun s ops = some (s', (dllRun l ops).2) ∧
      Good s' (dllRun l ops).1 ∧ s'.nodes.length = s.nodes.length := by
  intro ops
  induction ops with
  | nil =>
    intro s l hg _
    exact ⟨s, rfl, hg, rfl⟩
  | cons op rest ih =>
    intro s l hg hcap
    obtain ⟨s1, res, l1, hstep, hg1, hlen1, hequiv⟩ := sllStep_sim hg op
    have hcap1 : (dllStep l op).1.length ≤ s.nodes.length := by
      have h1 := hcap [op] ⟨rest, rfl⟩
      simpa [dllRun] using h1
    obtain ⟨hl1, hres⟩ := hequiv hcap1
    subst hl1
    subst hres
    have hcap' : ∀ p, List.IsPrefix p rest →
        (dllRun (dllStep l op).1 p).1.length ≤ s1.nodes.length := by
      intro p hp
      obtain ⟨t, ht⟩ := hp
      have hpre : List.IsPrefix (op :: p) (op :: rest) := ⟨t, by rw [← ht]; rfl⟩
      have h2 := hcap (op :: p) hpre
      rw [dllRun_cons] at h2
      rw [hlen1]
      exact h2
    obtain ⟨s2, hrun, hg2, hlen2⟩ := ih s1 (dllStep l op).1 hg1 hcap'
    refine ⟨s2, ?_, ?_, by rw [hlen2, hlen1]⟩
    · simp only [sllRun, hstep, hrun, dllRun_cons]
    · rw [dllRun_cons]
      exact hg2

theorem good_example :
    Good ({ nodes := [some { data := 10, next := some 1 },
                      some { data := 20, next := none }, none],
            head := some 0, free := [2] } : SLL Nat) [10, 20] := by
  refine ⟨[0, 1], ?_, by decide, by decide, by decide, by decide, by decide⟩
  have h0 : SLL.getN [some { data := (10 : Nat), next := some 1 }, some { data := 20, next := none }, none] 0 = some { data := 10, next := some 1 } := rfl
  have h1 : SLL.getN [some { data := (10 : Nat), next := some 1 }, some { data := 20, next := none }, none] 1 = some { data := 20, next := none } := rfl
  exact Rep.cons h0 (Rep.cons h1 Rep.nil)

/-- C1: for the bounded list, after every sequence of operations starting
from a new empty list with capacity `N`, the free slot indices and the slot
indices reachable from `head` partition `[0, N)` exactly: no index is both
free and reachable, every index below `N` is free or reachable, every
reachable slot is occupied, and every occupied slot is reachable (no leaked
slots). -/
theorem claim_C1 {T : Type} [DecidableEq T] (N : Nat) (ops : List (Op T)) :
    ∃ s' rs ixs vals, sllRun (SLL.new T N) ops = some (s', rs) ∧
      Rep s'.nodes s'.head ixs vals ∧
      (∀ i < N, ¬(i ∈ s'.free ∧ i ∈ ixs)) ∧
      (∀ i < N, (i ∈ s'.free ∨ i ∈ ixs)) ∧
      (∀ i ∈ ixs, (SLL.getN s'.nodes i).isSome) ∧
      (∀ i < N, (SLL.getN s'.nodes i).isSome → i ∈ ixs) := by
  obtain ⟨s', rs, l', hrun, hgood, hlen⟩ :=
    sllRun_good ops (SLL.new T N) [] (good_new T N)
  obtain ⟨ixs, g⟩ := hgood
  have hN : s'.nodes.length = N := by
    rw [hlen]
    simp [SLL.new]
  refine ⟨s', rs, ixs, l', hrun, g.rep, ?_, ?_, ?_, ?_⟩
  · intro i hi
    rintro ⟨hf, hr⟩
    exact (g.part i (by omega)).mp hf hr
  · intro i hi
    by_cases hr : i ∈ ixs
    · exact Or.inr hr
    · exact Or.inl ((g.part i (by omega)).mpr hr)
  · exact g.rep.getN_isSome
  · intro i hi hs
    exact (g.occ i (by omega)).mp hs

/-- C7: on an empty list, both variants answer `get(0)` with absence and
`delete_at_index(0)` / `update_element_at_index(0, v)` with the explicit
result `Err("Index out of bounds")`, never a panic; moreover no operation of
the shared interface panics on any state of the bounded list reachable from a
new empty list (every run of the panic-aware semantics returns `some`). -/
theorem claim_C7 {T : Type} [DecidableEq T] :
    (DLL.get ([] : List T) 0 = none) ∧
    (DLL.deleteAtIndex ([] : List T) 0 = ([], .error oobMsg)) ∧
    (∀ d : T, DLL.updateElementAtIndex ([] : List T) 0 d = ([], .error oobMsg)) ∧
    (∀ N : Nat, SLL.get (SLL.new T N) 0 = some none) ∧
    (∀ N : Nat, SLL.deleteAtIndex (SLL.new T N) 0 = some (SLL.new T N, .error oobMsg)) ∧
    (∀ (N : Nat) (d : T),
      SLL.updateElementAtIndex (SLL.new T N) 0 d = some (SLL.new T N, .error oobMsg)) ∧
    (∀ (N : Nat) (ops : List (Op T)), sllRun (SLL.new T N) ops ≠ none) := by
  refine ⟨rfl, rfl, fun _ => rfl, fun _ => rfl, fun _ => rfl, fun _ _ => rfl, ?_⟩
  intro N ops
  obtain ⟨s', rs, l', hrun, _, _⟩ := sllRun_good ops (SLL.new T N) [] (good_new T N)
  rw [hrun]
  exact fun hc => Option.noConfusion hc

/-- C2 counterexample: on a full capacity-1 bounded list holding `[7]`,
the trait method `insert` drops the element silently — the state is returned
unchanged, the only report is the console `println!` string, and the
caller-visible result of the step is plain unit with no error value.  This
refutes the claim that a capacity-exhausted `insert` is never silently
dropped or reported only as a console message. -/
theorem claim_C2_counterexample :
    SLL.insert ({ nodes := [some { data := 7, next := none }], head := some 0,
                  free := [] } : SLL Nat) 8 =
      some ({ nodes := [some { data := 7, next := none }], head := some 0,
              free := [] }, some fullConsoleMsg) ∧
    fullConsoleMsg = "StaticLinkedList is full. Cannot insert more elements." ∧
    sllStep ({ nodes := [some { data := 7, next := none }], head := some 0,
               free := [] } : SLL Nat) (.insert 8) =
      some ({ nodes := [some { data := 7, next := none }], head := some 0,
              free := [] }, .unit) :=
  ⟨rfl, rfl, rfl⟩

/-- C2 amended: for the bounded list, a capacity-exhausted `insert_at_index`
is surfaced to the caller as the explicit result `Err("List is full")` with
the state unchanged; the plain `insert`, however, reports exhaustion only via
the console message and silently drops the element (its return type is unit);
and no operation of the dynamic list ever produces the capacity-exhausted
error. -/
theorem claim_C2 {T : Type} [DecidableEq T] :
    (∀ (s : SLL T) (l : List T) (index : Nat) (d : T), Good s l →
        index ≤ l.length → l.length = s.nodes.length →
        SLL.insertAtIndex s index d = some (s, .error fullMsg)) ∧
    (∀ (s : SLL T) (l : List T) (d : T), Good s l → l.length = s.nodes.length →
        SLL.insert s d = some (s, some fullConsoleMsg)) ∧
    (∀ (l : List T) (index : Nat) (d : T),
        (DLL.insertAtIndex l index d).2 ≠ .error fullMsg ∧
        (DLL.deleteAtIndex l index).2 ≠ .error fullMsg ∧
        (DLL.updateElementAtIndex l index d).2 ≠ .error fullMsg) := by
  refine ⟨?_, ?_, ?_⟩
  · intro s l index d hg hle hfull
    obtain ⟨ixs, g⟩ := hg
    exact sllInsertAtFull g d hle hfull
  · intro s l d hg hfull
    obtain ⟨ixs, g⟩ := hg
    exact sllInsertFull g hfull d
  · intro l index d
    have hmsg : oobMsg ≠ fullMsg := by decide
    refine ⟨?_, ?_, ?_⟩
    · rcases le_or_lt index l.length with hle | hgt
      · rw [dll_insertAtIndex_le d hle]
        simp
      · rw [dll_insertAtIndex_gt d hgt]
        simp [hmsg]
    · rcases Nat.lt_or_ge index l.length with hlt2 | hge
      · rw [dll_deleteAtIndex_lt hlt2]
        simp
      · rw [dll_deleteAtIndex_ge hge]
        simp [hmsg]
    · rcases Nat.lt_or_ge index l.length with hlt2 | hge
      · rw [dll_updateAtIndex_lt d hlt2]
        simp
      · rw [dll_updateAtIndex_ge d hge]
        simp [hmsg]

/-- C2 witness: the amended claim applied to a concrete full capacity-1
list. -/
theorem claim_C2_witness :
    SLL.insertAtIndex ({ nodes := [some { data := 7, next := none }], head := some 0, free := [] } : SLL Nat) 0 9 =
      some ({ nodes := [some { data := 7, next := none }], head := some 0, free := [] }, .error fullMsg) := by
  have hg : Good ({ nodes := [some { data := 7, next := none }], head := some 0, free := [] } : SLL Nat) [7] := by
    refine ⟨[0], ?_, by decide, by decide, by decide, by decide, by decide⟩
    have h0 : SLL.getN [some { data := (7 : Nat), next := none }] 0 =
        some { data := 7, next := none } := rfl
    exact Rep.cons h0 Rep.nil
  exact claim_C2.1 _ [7] 0 9 hg (by decide) (by decide)

/-- C3: for every operation sequence under which the dynamic-list run never
holds more than `N` elements (checked on every prefix), the static list with
capacity `N` and the dynamic list return identical caller-visible results for
every operation, and after each step the static list's chain represents
exactly the dynamic list's element sequence. -/
theorem claim_C3 {T : Type} [DecidableEq T] (N : Nat) (ops : List (Op T))
    (hcap : ∀ p ∈ ops.inits, (dllRun ([] : List T) p).1.length ≤ N) :
    ∀ p ∈ ops.inits,
      ∃ s', sllRun (SLL.new T N) p = some (s', (dllRun ([] : List T) p).2) ∧
        ∃ ixs, Rep s'.nodes s'.head ixs (dllRun ([] : List T) p).1 := by
  intro p hp
  rw [List.mem_inits _ _] at hp
  have hcap' : ∀ q, List.IsPrefix q p →
      (dllRun ([] : List T) q).1.length ≤ (SLL.new T N).nodes.length := by
    intro q hq
    have : q ∈ ops.inits := (List.mem_inits _ _).mpr (hq.trans hp)
    have h1 := hcap q this
    simpa [SLL.new] using h1
  obtain ⟨s', hrun, hgood, hlen⟩ :=
    sllRun_equiv p (SLL.new T N) [] (good_new T N) hcap'
  obtain ⟨ixs, g⟩ := hgood
  exact ⟨s', hrun, ixs, g.rep⟩

/-- C3 witness: the equivalence applied to a concrete interleaved sequence of
all eight operations on a capacity-2 list. -/
theorem claim_C3_witness :
    (∀ p ∈ ([Op.insert 1, Op.insert 2, Op.deleteElement 1, Op.insertAtIndex 1 9,
        Op.updateElement 9 5, Op.updateElementAtIndex 0 4, Op.find 4,
        Op.get 1, Op.deleteAtIndex 0].inits),
      (dllRun ([] : List Nat) p).1.length ≤ 2) ∧
    (∀ p ∈ ([Op.insert 1, Op.insert 2, Op.deleteElement 1, Op.insertAtIndex 1 9,
        Op.updateElement 9 5, Op.updateElementAtIndex 0 4, Op.find 4,
        Op.get 1, Op.deleteAtIndex 0].inits),
      ∃ s', sllRun (SLL.new Nat 2) p = some (s', (dllRun ([] : List Nat) p).2) ∧
        ∃ ixs, Rep s'.nodes s'.head ixs (dllRun ([] : List Nat) p).1) :=
  ⟨by decide, claim_C3 2 _ (by decide)⟩

/-- C4: for both variants, `insert_at_index(i, x)` with `i ≤ L` places `x` at
position `i` (before the element currently there, shifting the rest up; `i =
L` appends), and with `i > L` returns `Err("Index out of bounds")`; for the
bounded variant the successful case assumes a free slot exists. -/
theorem claim_C4 {T : Type} [DecidableEq T] :
    (∀ (l : List T) (i : Nat) (d : T), i ≤ l.length →
        DLL.insertAtIndex l i d = (l.take i ++ d :: l.drop i, .ok ())) ∧
    (∀ (l : List T) (i : Nat) (d : T), l.length < i →
        DLL.insertAtIndex l i d = (l, .error oobMsg)) ∧
    (∀ (s : SLL T) (l : List T) (i : Nat) (d : T), Good s l → i ≤ l.length →
        l.length < s.nodes.length →
        ∃ s', SLL.insertAtIndex s i d = some (s', .ok ()) ∧
          Good s' (l.take i ++ d :: l.drop i)) ∧
    (∀ (s : SLL T) (l : List T) (i : Nat) (d : T), Good s l → l.length < i →
        SLL.insertAtIndex s i d = some (s, .error oobMsg)) := by
  refine ⟨?_, ?_, ?_, ?_⟩
  · intro l i d hle
    exact dll_insertAtIndex_le d hle
  · intro l i d hgt
    exact dll_insertAtIndex_gt d hgt
  · intro s l i d hg hle hlt
    obtain ⟨ixs, g⟩ := hg
    obtain ⟨s', heq, hgood, _⟩ := sllInsertAtOk g d hle hlt
    exact ⟨s', heq, hgood⟩
  · intro s l i d hg hgt
    obtain ⟨ixs, g⟩ := hg
    exact sllInsertAtOob g d hgt

/-- C4 witness: the statement applied to a concrete two-element bounded list
and to concrete dynamic lists, at an interior index, the appending index and
an out-of-bounds index. -/
theorem claim_C4_witness :
    DLL.insertAtIndex [10, 20] 1 9 = ([10, 9, 20], .ok ()) ∧
    DLL.insertAtIndex [10, 20] 3 9 = ([10, 20], .error oobMsg) ∧
    (∃ s', SLL.insertAtIndex ({ nodes := [some { data := 10, next := some 1 }, some { data := 20, next := none }, none], head := some 0, free := [2] } : SLL Nat) 1 9 = some (s', .ok ()) ∧ Good s' [10, 9, 20]) ∧
    SLL.insertAtIndex ({ nodes := [some { data := 10, next := some 1 }, some { data := 20, next := none }, none], head := some 0, free := [2] } : SLL Nat) 3 9 =
      some ({ nodes := [some { data := 10, next := some 1 }, some { data := 20, next := none }, none], head := some 0, free := [2] }, .error oobMsg) := by
  refine ⟨claim_C4.1 [10, 20] 1 9 (by decide), claim_C4.2.1 [10, 20] 3 9 (by decide), ?_, ?_⟩
  · exact claim_C4.2.2.1 _ [10, 20] 1 9 good_example (by decide) (by decide)
  · exact claim_C4.2.2.2 _ [10, 20] 3 9 good_example (by decide)

/-- C5: for both variants, `delete_element(x)` removes exactly the first
occurrence of `x` (positions before it contain no `x`) and returns true,
leaving the remaining elements in order; afterwards `find(x)` is false when
`x` occurred exactly once; and when `x` is absent it returns false and leaves
the list unchanged. -/
theorem claim_C5 {T : Type} [DecidableEq T] :
    (∀ (l : List T) (d : T) (k : Nat), l[k]? = some d →
        (∀ m < k, l[m]? ≠ some d) →
        DLL.deleteElement l d = (l.take k ++ l.drop (k + 1), true) ∧
        (l.count d = 1 → DLL.find (l.take k ++ l.drop (k + 1)) d = false)) ∧
    (∀ (l : List T) (d : T), d ∉ l → DLL.deleteElement l d = (l, false)) ∧
    (∀ (s : SLL T) (l : List T) (d : T) (k : Nat), Good s l → l[k]? = some d →
        (∀ m < k, l[m]? ≠ some d) →
        ∃ s', SLL.deleteElement s d = some (s', true) ∧
          Good s' (l.take k ++ l.drop (k + 1)) ∧
          (l.count d = 1 → SLL.find s' d = some false)) ∧
    (∀ (s : SLL T) (l : List T) (d : T), Good s l → d ∉ l →
        SLL.deleteElement s d = some (s, false)) := by
  have hcount : ∀ (l : List T) (d : T) (k : Nat), l[k]? = some d → l.count d = 1 →
      d ∉ l.take k ++ l.drop (k + 1) := by
    intro l d k hk hcnt
    obtain ⟨hlt, he⟩ := List.getElem?_eq_some.mp hk
    have hsplit : l = l.take k ++ l[k] :: l.drop (k + 1) := by
      conv_lhs => rw [← List.take_append_drop k l]
      rw [List.drop_eq_getElem_cons hlt]
    rw [hsplit, he] at hcnt
    simp only [List.count_append, List.count_cons_self] at hcnt
    intro hmem
    rw [List.mem_append] at hmem
    rcases hmem with hmem | hmem
    · have := List.count_pos_iff.mpr hmem
      omega
    · have := List.count_pos_iff.mpr hmem
      omega
  refine ⟨?_, ?_, ?_, ?_⟩
  · intro l d k hk hmin
    refine ⟨dll_deleteElement_first k hk hmin, ?_⟩
    intro hcnt
    rw [dll_find_eq]
    simp [hcount l d k hk hcnt]
  · intro l d h
    exact dll_deleteElement_not_mem h
  · intro s l d k hg hk hmin
    obtain ⟨ixs, g⟩ := hg
    obtain ⟨s', heq, hgood, _⟩ := sllDeleteElMem g hk hmin
    refine ⟨s', heq, hgood, ?_⟩
    intro hcnt
    obtain ⟨ixs', g'⟩ := hgood
    rw [sllFindEq g' d, dll_find_eq]
    simp [hcount l d k hk hcnt]
  · intro s l d hg h
    obtain ⟨ixs, g⟩ := hg
    exact sllDeleteElNotMem g h

/-- C5 witness: deleting 10 from the two-element lists `[10, 20]` of both
variants, and deleting an absent element. -/
theorem claim_C5_witness :
    (DLL.deleteElement [10, 20] 10 = ([20], true) ∧
      (List.count 10 [10, 20] = 1 → DLL.find [20] 10 = false)) ∧
    DLL.deleteElement [10, 20] 30 = ([10, 20], false) ∧
    (∃ s', SLL.deleteElement ({ nodes := [some { data := 10, next := some 1 }, some { data := 20, next := none }, none], head := some 0, free := [2] } : SLL Nat) 10 = some (s', true) ∧
      Good s' [20] ∧ (List.count 10 [10, 20] = 1 → SLL.find s' 10 = some false)) ∧
    SLL.deleteElement ({ nodes := [some { data := 10, next := some 1 }, some { data := 20, next := none }, none], head := some 0, free := [2] } : SLL Nat) 30 =
      some ({ nodes := [some { data := 10, next := some 1 }, some { data := 20, next := none }, none], head := some 0, free := [2] }, false) := by
  refine ⟨claim_C5.1 [10, 20] 10 0 (by decide) (by decide),
    claim_C5.2.1 [10, 20] 30 (by decide), ?_,
    claim_C5.2.2.2 _ [10, 20] 30 good_example (by decide)⟩
  exact claim_C5.2.2.1 _ [10, 20] 10 0 good_example (by decide) (by decide)

/-- C6: for both variants, every index-based operation that returns a failure
result leaves the container exactly as it was: the dynamic list returned with
an error is the input list, and the static list state paired with an error is
the input state (whose structural invariant `Good` therefore still holds). -/
theorem claim_C6 {T : Type} [DecidableEq T] :
    (∀ (l : List T) (i : Nat) (d : T) (e : String),
        (DLL.insertAtIndex l i d).2 = .error e → (DLL.insertAtIndex l i d).1 = l) ∧
    (∀ (l : List T) (i : Nat) (e : String),
        (DLL.deleteAtIndex l i).2 = .error e → (DLL.deleteAtIndex l i).1 = l) ∧
    (∀ (l : List T) (i : Nat) (d : T) (e : String),
        (DLL.updateElementAtIndex l i d).2 = .error e →
          (DLL.updateElementAtIndex l i d).1 = l) ∧
    (∀ (s : SLL T) (l : List T) (i : Nat) (d : T) (s' : SLL T) (e : String),
        Good s l → SLL.insertAtIndex s i d = some (s', .error e) →
          s' = s ∧ Good s' l) ∧
    (∀ (s : SLL T) (l : List T) (i : Nat) (s' : SLL T) (e : String),
        Good s l → SLL.deleteAtIndex s i = some (s', .error e) →
          s' = s ∧ Good s' l) ∧
    (∀ (s : SLL T) (l : List T) (i : Nat) (d : T) (s' : SLL T) (e : String),
        Good s l → SLL.updateElementAtIndex s i d = some (s', .error e) →
          s' = s ∧ Good s' l) := by
  refine ⟨?_, ?_, ?_, ?_, ?_, ?_⟩
  · intro l i d e he
    rcases le_or_lt i l.length with hle | hgt
    · rw [dll_insertAtIndex_le d hle] at he
      simp at he
    · rw [dll_insertAtIndex_gt d hgt]
  · intro l i e he
    rcases Nat.lt_or_ge i l.length with hlt2 | hge
    · rw [dll_deleteAtIndex_lt hlt2] at he
      simp at he
    · rw [dll_deleteAtIndex_ge hge]
  · intro l i d e he
    rcases Nat.lt_or_ge i l.length with hlt2 | hge
    · rw [dll_updateAtIndex_lt d hlt2] at he
      simp at he
    · rw [dll_updateAtIndex_ge d hge]
  · intro s l i d s' e hg heq
    obtain ⟨ixs, g⟩ := hg
    rcases le_or_lt i l.length with hle | hgt
    · rcases Nat.lt_or_ge l.length s.nodes.length with hlt2 | hge
      · obtain ⟨s2, heq2, _, _⟩ := sllInsertAtOk g d hle hlt2
        rw [heq2] at heq
        simp at heq
      · have hfull : l.length = s.nodes.length := Nat.le_antisymm g.len_le hge
        rw [sllInsertAtFull g d hle hfull] at heq
        simp only [Option.some.injEq, Prod.mk.injEq] at heq
        exact ⟨heq.1.symm ▸ rfl, heq.1 ▸ ⟨ixs, g⟩⟩
    · rw [sllInsertAtOob g d hgt] at heq
      simp only [Option.some.injEq, Prod.mk.injEq] at heq
      exact ⟨heq.1.symm ▸ rfl, heq.1 ▸ ⟨ixs, g⟩⟩
  · intro s l i s' e hg heq
    obtain ⟨ixs, g⟩ := hg
    rcases Nat.lt_or_ge i l.length with hlt2 | hge
    · obtain ⟨s2, heq2, _, _⟩ := sllDeleteAtOk g hlt2
      rw [heq2] at heq
      simp at heq
    · rw [sllDeleteAtOob g hge] at heq
      simp only [Option.some.injEq, Prod.mk.injEq] at heq
      exact ⟨heq.1.symm ▸ rfl, heq.1 ▸ ⟨ixs, g⟩⟩
  · intro s l i d s' e hg heq
    obtain ⟨ixs, g⟩ := hg
    rcases Nat.lt_or_ge i l.length with hlt2 | hge
    · obtain ⟨s2, heq2, _, _⟩ := sllUpdateAtOk g d hlt2
      rw [heq2] at heq
      simp at heq
    · rw [sllUpdateAtOob g d hge] at heq
      simp only [Option.some.injEq, Prod.mk.injEq] at heq
      exact ⟨heq.1.symm ▸ rfl, heq.1 ▸ ⟨ixs, g⟩⟩

/-- C6 witness: failed operations at out-of-bounds index 5 on concrete
two-element lists leave both containers unchanged. -/
theorem claim_C6_witness :
    ((DLL.insertAtIndex [10, 20] 5 9).2 = .error oobMsg →
      (DLL.insertAtIndex [10, 20] 5 9).1 = [10, 20]) ∧
    ((DLL.deleteAtIndex [10, 20] 5).2 = .error oobMsg →
      (DLL.deleteAtIndex [10, 20] 5).1 = [10, 20]) ∧
    (SLL.deleteAtIndex ({ nodes := [some { data := 10, next := some 1 }, some { data := 20, next := none }, none], head := some 0, free := [2] } : SLL Nat) 5 =
        some ({ nodes := [some { data := 10, next := some 1 }, some { data := 20, next := none }, none], head := some 0, free := [2] }, .error oobMsg) →
      ({ nodes := [some { data := 10, next := some 1 }, some { data := 20, next := none }, none], head := some 0, free := [2] } : SLL Nat) =
        ({ nodes := [some { data := 10, next := some 1 }, some { data := 20, next := none }, none], head := some 0, free := [2] } : SLL Nat) ∧
      Good ({ nodes := [some { data := 10, next := some 1 }, some { data := 20, next := none }, none], head := some 0, free := [2] } : SLL Nat) [10, 20]) := by
  refine ⟨fun h => claim_C6.1 [10, 20] 5 9 oobMsg h,
    fun h => claim_C6.2.1 [10, 20] 5 oobMsg h, fun h => ?_⟩
  exact claim_C6.2.2.2.2.1 _ [10, 20] 5 _ oobMsg good_example h

/-- C8: on both variants, `insert(x)` followed immediately by
`get(length - 1)`, with `length` the element count after the insert, returns
`x`; for the bounded variant this assumes a free slot was available. -/
theorem claim_C8 {T : Type} [DecidableEq T] :
    (∀ (l : List T) (x : T),
        DLL.get (DLL.insert l x) ((DLL.insert l x).length - 1) = some x) ∧
    (∀ (s : SLL T) (l : List T) (x : T), Good s l → l.length < s.nodes.length →
        ∃ s' l', SLL.insert s x = some (s', none) ∧ Good s' l' ∧
          l'.length = l.length + 1 ∧ SLL.get s' (l'.length - 1) = some (some x)) := by
  constructor
  · intro l x
    rw [dll_insert_eq, dll_get_eq]
    simp
  · intro s l x hg hlt
    obtain ⟨ixs, g⟩ := hg
    obtain ⟨s', heq, hgood, _⟩ := sllInsertOk g hlt x
    obtain ⟨ixs', g'⟩ := hgood
    refine ⟨s', l ++ [x], heq, ⟨ixs', g'⟩, by simp, ?_⟩
    rw [sllGetEq g']
    simp

/-- C8 witness: the round trip on the concrete lists `[10, 20]` of both
variants. -/
theorem claim_C8_witness :
    DLL.get (DLL.insert [10, 20] 9) ((DLL.insert [10, 20] 9).length - 1) = some 9 ∧
    (∃ s' l', SLL.insert ({ nodes := [some { data := 10, next := some 1 }, some { data := 20, next := none }, none], head := some 0, free := [2] } : SLL Nat) 9 = some (s', none) ∧
      Good s' l' ∧ l'.length = 3 ∧ SLL.get s' (l'.length - 1) = some (some 9)) :=
  ⟨claim_C8.1 [10, 20] 9, claim_C8.2 _ [10, 20] 9 good_example (by decide)⟩

theorem insertSeq_ok {T : Type} [DecidableEq T] :
    ∀ (xs : List T) (s : SLL T) (l : List T), Good s l →
      l.length + xs.length ≤ s.nodes.length →
      ∃ s', insertSeq s xs = some (s', false) ∧ Good s' (l ++ xs) ∧
        s'.nodes.length = s.nodes.length := by
  intro xs
  induction xs with
  | nil =>
    intro s l hg _
    exact ⟨s, rfl, by simpa using hg, rfl⟩
  | cons x xs ih =>
    intro s l hg hcap
    obtain ⟨ixs, g⟩ := hg
    have hlt : l.length < s.nodes.length := by
      simp only [List.length_cons] at hcap
      omega
    obtain ⟨s1, heq, hg1, hlen1⟩ := sllInsertOk g hlt x
    have hcap1 : (l ++ [x]).length + xs.length ≤ s1.nodes.length := by
      rw [hlen1]
      simp only [List.length_append, List.length_singleton]
      simp only [List.length_cons] at hcap
      omega
    obtain ⟨s2, heq2, hg2, hlen2⟩ := ih s1 (l ++ [x]) hg1 hcap1
    refine ⟨s2, ?_, by simpa using hg2, by rw [hlen2, hlen1]⟩
    simp only [insertSeq, heq, heq2]
    rfl

/-- C9: starting from a new empty bounded list of capacity `N`, inserting `N`
elements succeeds with no list-full console message; the `(N+1)`-th insert
prints the list-full message and returns the state literally unchanged — the
`N` stored elements, their order, and the logical length all stay the same. -/
theorem claim_C9 {T : Type} [DecidableEq T] (N : Nat) (xs : List T)
    (hlen : xs.length = N) (y : T) :
    ∃ s, insertSeq (SLL.new T N) xs = some (s, false) ∧ Good s xs ∧
      SLL.insert s y = some (s, some fullConsoleMsg) := by
  have hcap : ([] : List T).length + xs.length ≤ (SLL.new T N).nodes.length := by
    simp [SLL.new, hlen]
  obtain ⟨s, heq, hgood, hlens⟩ := insertSeq_ok xs (SLL.new T N) [] (good_new T N) hcap
  simp only [List.nil_append] at hgood
  obtain ⟨ixs, g⟩ := hgood
  have hfull : xs.length = s.nodes.length := by
    rw [hlens]
    simp [SLL.new, hlen]
  exact ⟨s, heq, ⟨ixs, g⟩, sllInsertFull g hfull y⟩

/-- C9 witness: a capacity-2 list filled with `[5, 6]`; the third insert
prints the console message and leaves the state unchanged. -/
theorem claim_C9_witness :
    (([5, 6] : List Nat).length = 2) ∧
    (∃ s, insertSeq (SLL.new Nat 2) [5, 6] = some (s, false) ∧ Good s [5, 6] ∧
      SLL.insert s 7 = some (s, some fullConsoleMsg)) :=
  ⟨by decide, claim_C9 2 [5, 6] (by decide) 7⟩

/-- C10: a successful `update_element_at_index(i, v)` on either variant
changes only position `i`: the result is `l.set i v`, the length is
unchanged, position `i` reads `v` and every other position is untouched;
likewise `update_element(old, new)` rewrites exactly the first position
holding `old`. -/
theorem claim_C10 {T : Type} [DecidableEq T] :
    (∀ (l : List T) (i : Nat) (d : T), i < l.length →
        DLL.updateElementAtIndex l i d = (l.set i d, .ok ()) ∧
        (l.set i d).length = l.length ∧ (l.set i d)[i]? = some d ∧
        (∀ j, j ≠ i → (l.set i d)[j]? = l[j]?)) ∧
    (∀ (l : List T) (old new : T) (k : Nat), l[k]? = some old →
        (∀ m < k, l[m]? ≠ some old) →
        DLL.updateElement l old new = (l.set k new, true) ∧
        (l.set k new).length = l.length ∧
        (∀ j, j ≠ k → (l.set k new)[j]? = l[j]?)) ∧
    (∀ (s : SLL T) (l : List T) (i : Nat) (d : T), Good s l → i < l.length →
        ∃ s', SLL.updateElementAtIndex s i d = some (s', .ok ()) ∧
          Good s' (l.set i d)) ∧
    (∀ (s : SLL T) (l : List T) (old new : T) (k : Nat), Good s l →
        l[k]? = some old → (∀ m < k, l[m]? ≠ some old) →
        ∃ s', SLL.updateElement s old new = some (s', true) ∧
          Good s' (l.set k new)) := by
  refine ⟨?_, ?_, ?_, ?_⟩
  · intro l i d hlt
    refine ⟨dll_updateAtIndex_lt d hlt, List.length_set l i d, ?_, ?_⟩
    · exact List.getElem?_set_eq_of_lt d hlt
    · intro j hj
      exact List.getElem?_set_ne (fun he => hj he.symm)
  · intro l old new k hk hmin
    refine ⟨dll_updateElement_first new k hk hmin, List.length_set l k new, ?_⟩
    intro j hj
    exact List.getElem?_set_ne (fun he => hj he.symm)
  · intro s l i d hg hlt
    obtain ⟨ixs, g⟩ := hg
    obtain ⟨s', heq, hgood, _⟩ := sllUpdateAtOk g d hlt
    exact ⟨s', heq, hgood⟩
  · intro s l old new k hg hk hmin
    obtain ⟨ixs, g⟩ := hg
    obtain ⟨s', heq, hgood, _⟩ := sllUpdateElMem g new hk hmin
    exact ⟨s', heq, hgood⟩

/-- C10 witness: updating index 1 and first occurrence of 10 on the concrete
two-element lists of both variants. -/
theorem claim_C10_witness :
    (DLL.updateElementAtIndex [10, 20] 1 9 = ([10, 9], .ok ()) ∧
      ([10, 20].set 1 9).length = 2 ∧ ([10, 20].set 1 9)[1]? = some 9 ∧
      (∀ j, j ≠ 1 → (([10, 20] : List Nat).set 1 9)[j]? = ([10, 20] : List Nat)[j]?)) ∧
    (∃ s', SLL.updateElementAtIndex ({ nodes := [some { data := 10, next := some 1 }, some { data := 20, next := none }, none], head := some 0, free := [2] } : SLL Nat) 1 9 = some (s', .ok ()) ∧ Good s' [10, 9]) ∧
    (∃ s', SLL.updateElement ({ nodes := [some { data := 10, next := some 1 }, some { data := 20, next := none }, none], head := some 0, free := [2] } : SLL Nat) 10 9 = some (s', true) ∧ Good s' [9, 20]) := by
  refine ⟨?_, ?_, ?_⟩
  · have h := claim_C10.1 [10, 20] 1 9 (by decide)
    exact ⟨h.1, h.2.1, h.2.2.1, h.2.2.2⟩
  · exact claim_C10.2.2.1 _ [10, 20] 1 9 good_example (by decide)
  · exact claim_C10.2.2.2 _ [10, 20] 10 9 0 good_example (by decide) (by decide)

end LinkedListImpls
